import Mathlib

/-!
Shallow embedding of `src/binding_normalization.cpp` (the fruit dependency-injection
runtime resolution engine): binding normalization, binding compression, multibinding
merging, and lazy-component expansion, together with proofs of the specified
properties.

`TypeId` is an opaque comparable/hashable token; we model it as `Nat`.
C++ hash maps keyed by `TypeId` are modelled as association lists with unique keys
(`findA` / `insertA` / `eraseA` below); iteration order of a hash map is
unspecified in C++, so the list order here is one admissible order.
Fatal paths (`exit(1)`) are modelled by an `Except` error result.
-/

set_option autoImplicit false

abbrev TypeId := Nat

/-- `BindingData`: either a sentinel "already constructed" state
(`is_created = true`) or a dependency list plus an opaque factory.
`needs_allocation` records whether the binding requires engine-managed
allocation.  Equality compares all stored components, as the C++
`BindingData::operator==` does. -/
structure BindingData where
  is_created : Bool
  deps : List TypeId
  factory : Nat
  needs_allocation : Bool
deriving DecidableEq, Repr

def BindingData.isCreated (b : BindingData) : Bool := b.is_created

def BindingData.getDeps (b : BindingData) : List TypeId := b.deps

def BindingData.needsAllocation (b : BindingData) : Bool := b.needs_allocation

/-- `MultibindingData`: one provider contribution for a type: an opaque factory,
an optional dependency list (`deps = none` models a null `BindingDeps*`),
an allocation flag, and the shared "get all instances" accessor. -/
structure MultibindingData where
  factory : Nat
  deps : Option (List TypeId)
  needs_allocation : Bool
  get_multibindings_vector : Nat
deriving DecidableEq, Repr

/-- `CompressedBinding`: a candidate compression edge
`(class_id C, interface_id I, binding_data for I)`. -/
structure CompressedBinding where
  class_id : TypeId
  interface_id : TypeId
  binding_data : BindingData
deriving DecidableEq, Repr

/-- Modelled from the spec: `FixedSizeAllocator::FixedSizeAllocatorData` is not
part of the excerpt; per the spec it is "a running tally of how many instances
of each type require engine-managed allocation versus externally-managed
allocation".  We record the two tallies as lists of recorded types, so the
per-type counts are the list counts. -/
structure FixedSizeAllocatorData where
  types_to_allocate : List TypeId
  externally_allocated_types : List TypeId
deriving DecidableEq, Repr

/-- Modelled from the spec: `addType` records one engine-managed allocation for
the given type. -/
def FixedSizeAllocatorData.addType (f : FixedSizeAllocatorData) (t : TypeId) :
    FixedSizeAllocatorData :=
  { f with types_to_allocate := f.types_to_allocate ++ [t] }

/-- Modelled from the spec: `addExternallyAllocatedType` records one
externally-managed instance for the given type. -/
def FixedSizeAllocatorData.addExternallyAllocatedType (f : FixedSizeAllocatorData)
    (t : TypeId) : FixedSizeAllocatorData :=
  { f with externally_allocated_types := f.externally_allocated_types ++ [t] }

/-- `BindingCompressionInfo`: per compressed class type, the interface it was
folded into and the original binding data of both. -/
structure BindingCompressionInfo where
  i_type_id : TypeId
  i_binding : BindingData
  c_binding : BindingData
deriving DecidableEq, Repr

/-! ## Association lists standing in for the C++ hash maps -/

/-- Lookup in an association list (`HashMap::find`). -/
def findA {β : Type} : List (TypeId × β) → TypeId → Option β
  | [], _ => none
  | (k, v) :: rest, a => if k = a then some v else findA rest a

/-- Keyed update (`map[a] = b`): replaces the entry in place when the key is
present, appends it otherwise. -/
def insertA {β : Type} : List (TypeId × β) → TypeId → β → List (TypeId × β)
  | [], a, b => [(a, b)]
  | (k, v) :: rest, a, b => if k = a then (a, b) :: rest else (k, v) :: insertA rest a b

/-- Keyed removal (`map.erase(a)`). -/
def eraseA {β : Type} : List (TypeId × β) → TypeId → List (TypeId × β)
  | [], _ => []
  | (k, v) :: rest, a => if k = a then eraseA rest a else (k, v) :: eraseA rest a

def keysA {β : Type} (m : List (TypeId × β)) : List TypeId := m.map Prod.fst

def NodupKeys {β : Type} (m : List (TypeId × β)) : Prop := (keysA m).Nodup

/-- Number of occurrences of `a` in a list of type ids. -/
def countId (l : List TypeId) (a : TypeId) : Nat := (l.filter (fun x => x = a)).length

/-- Number of entries with key `a`. -/
def countKey {β : Type} (m : List (TypeId × β)) (a : TypeId) : Nat := countId (keysA m) a

/-! ## Binding normalization (`BindingNormalization::normalizeBindings`) -/

/-- The fatal diagnostics of the normalization pass.  `multipleBindings t`
models `multipleBindingsError(t)` followed by `exit(1)`: the diagnostic names
the offending `TypeId`. -/
inductive NormError where
  | multipleBindings (type : TypeId)
deriving DecidableEq, Repr

/-- First loop of `normalizeBindings`: build the `TypeId -> BindingData` map,
failing fatally on a duplicate type whose data compares unequal to the stored
one; a duplicate-but-consistent binding is discarded silently. -/
def makeBindingDataMap :
    List (TypeId × BindingData) → List (TypeId × BindingData) →
    Except NormError (List (TypeId × BindingData))
  | [], acc => .ok acc
  | (t, d) :: rest, acc =>
    match findA acc t with
    | some d' =>
      if d = d' then makeBindingDataMap rest acc
      else .error (.multipleBindings t)
    | none => makeBindingDataMap rest (insertA acc t d)

/-- Second loop of `normalizeBindings`: one allocator-accounting pass per raw
(pre-deduplication) binding occurrence. -/
def processAllocator (fsad : FixedSizeAllocatorData) :
    List (TypeId × BindingData) → FixedSizeAllocatorData :=
  List.foldl (fun f p =>
    if p.2.needsAllocation then f.addType p.1 else f.addExternallyAllocatedType p.1) fsad

/-- Build the `C -> (I, binding_data)` map from the candidate vector; a later
candidate for the same class type overwrites an earlier one, removing
duplicates. -/
def makeCompressedBindingsMap (cbv : List CompressedBinding) :
    List (TypeId × (TypeId × BindingData)) :=
  cbv.foldl (fun m cb => insertA m cb.class_id (cb.interface_id, cb.binding_data)) []

/-- Erase every key in `ds` from the map. -/
def eraseDeps (m : List (TypeId × (TypeId × BindingData))) (ds : List TypeId) :
    List (TypeId × (TypeId × BindingData)) :=
  ds.foldl (fun m d => eraseA m d) m

/-- Safety rule 1: a candidate class type that is a dependency of some
multibinding is removed from the candidate map. -/
def eraseMultibindingDeps (m : List (TypeId × (TypeId × BindingData)))
    (mbv : List (TypeId × MultibindingData)) :
    List (TypeId × (TypeId × BindingData)) :=
  mbv.foldl (fun m p =>
    match p.2.deps with
    | some ds => eraseDeps m ds
    | none => m) m

/-- Safety rule 2: a candidate class type that is publicly exposed is removed
from the candidate map. -/
def removeExposedTypes (m : List (TypeId × (TypeId × BindingData)))
    (exposed_types : List TypeId) : List (TypeId × (TypeId × BindingData)) :=
  exposed_types.foldl (fun m t => eraseA m t) m

/-- The body of the inner loop of safety rule 3: one dependency `c` of the
binding of `x_id` disqualifies the candidate whose class type is `c`, unless
that candidate's interface is `x_id` itself. -/
def filterDepsInner (x_id : TypeId) (m : List (TypeId × (TypeId × BindingData)))
    (c : TypeId) : List (TypeId × (TypeId × BindingData)) :=
  match findA m c with
  | some q => if q.1 ≠ x_id then eraseA m c else m
  | none => m

/-- One step of safety rule 3, for one entry `(x_id, binding_data)` of the
binding map: every dependency `c` of a non-created binding disqualifies the
candidate for `c` unless the candidate's interface is `x_id` itself. -/
def filterDepsStep (m : List (TypeId × (TypeId × BindingData)))
    (p : TypeId × BindingData) : List (TypeId × (TypeId × BindingData)) :=
  if p.2.isCreated then m
  else p.2.getDeps.foldl (filterDepsInner p.1) m

/-- Safety rule 3: a candidate class type depended on by some bound type other
than its paired interface is removed from the candidate map. -/
def filterDeps (m : List (TypeId × (TypeId × BindingData)))
    (binding_data_map : List (TypeId × BindingData)) :
    List (TypeId × (TypeId × BindingData)) :=
  binding_data_map.foldl filterDepsStep m

/-- The candidate map after removing duplicates and applying all three safety
rules. -/
def filteredCompressedBindingsMap (binding_data_map : List (TypeId × BindingData))
    (cbv : List CompressedBinding) (mbv : List (TypeId × MultibindingData))
    (exposed_types : List TypeId) : List (TypeId × (TypeId × BindingData)) :=
  filterDeps
    (removeExposedTypes (eraseMultibindingDeps (makeCompressedBindingsMap cbv) mbv)
      exposed_types)
    binding_data_map

/-- One surviving candidate `(c_id, (i_id, binding_data))` is applied: the
interface entry is overwritten with the candidate's binding data and the class
entry is erased, recording the original data of both in the compression-info
map.  The C++ code asserts that both map lookups succeed (`FruitAssert`); when
the asserted precondition fails the candidate is skipped here. -/
def performCompressionStep
    (st : List (TypeId × BindingData) × List (TypeId × BindingCompressionInfo))
    (p : TypeId × (TypeId × BindingData)) :
    List (TypeId × BindingData) × List (TypeId × BindingCompressionInfo) :=
  match findA st.1 p.2.1, findA st.1 p.1 with
  | some i_binding_data, some c_binding_data =>
    (eraseA (insertA st.1 p.2.1 p.2.2) p.1,
     insertA st.2 p.1 ⟨p.2.1, i_binding_data, c_binding_data⟩)
  | _, _ => st

/-- The binding-compression loop over the surviving candidates. -/
def performCompression (cm : List (TypeId × (TypeId × BindingData)))
    (binding_data_map : List (TypeId × BindingData)) :
    List (TypeId × BindingData) × List (TypeId × BindingCompressionInfo) :=
  cm.foldl performCompressionStep (binding_data_map, [])

/-- The result of `normalizeBindings`: the normalized binding vector, the
populated allocator accumulator, and the compression-provenance map. -/
structure NormalizeResult where
  result : List (TypeId × BindingData)
  allocator : FixedSizeAllocatorData
  compressionInfo : List (TypeId × BindingCompressionInfo)
deriving DecidableEq, Repr

/-- `BindingNormalization::normalizeBindings`: deduplicate the flattened
binding vector (fatally rejecting inconsistent duplicates), account every raw
occurrence in the allocator plan, then prune and apply the binding
compressions. -/
def normalizeBindings (bindings_vector : List (TypeId × BindingData))
    (fixed_size_allocator_data : FixedSizeAllocatorData)
    (compressed_bindings_vector : List CompressedBinding)
    (multibindings_vector : List (TypeId × MultibindingData))
    (exposed_types : List TypeId) : Except NormError NormalizeResult :=
  match makeBindingDataMap bindings_vector [] with
  | .error e => .error e
  | .ok binding_data_map =>
    let fsad := processAllocator fixed_size_allocator_data bindings_vector
    let cm := filteredCompressedBindingsMap binding_data_map compressed_bindings_vector
      multibindings_vector exposed_types
    let res := performCompression cm binding_data_map
    .ok ⟨res.1, fsad, res.2⟩

/-! ## Multibinding merging (`BindingNormalization::addMultibindings`) -/

/-- `NormalizedMultibindingData::Elem`: one merged provider element, built from
the provider's `MultibindingData`. -/
structure Elem where
  data : MultibindingData
deriving DecidableEq, Repr

/-- `NormalizedMultibindingData`: per type, the ordered merged provider
elements and the shared "get all instances" accessor.  A default-constructed
entry (as produced by `unordered_map::operator[]` on an absent key) has no
elements and a null accessor, modelled as `0`. -/
structure NormalizedMultibindingData where
  elems : List Elem
  get_multibindings_vector : Nat
deriving DecidableEq, Repr

/-- Insertion step of the sort by `TypeId` (`typeInfoLessThanForMultibindings`
compares only the keys). -/
def insertSortedMB (p : TypeId × MultibindingData) :
    List (TypeId × MultibindingData) → List (TypeId × MultibindingData)
  | [] => [p]
  | q :: rest => if q.1 ≤ p.1 then q :: insertSortedMB p rest else p :: q :: rest

/-- Sorting the multibinding vector by `TypeId` (the effect of `std::sort` with
`typeInfoLessThanForMultibindings`; `std::sort` guarantees a permutation that
is sorted by key). -/
def sortMB (l : List (TypeId × MultibindingData)) : List (TypeId × MultibindingData) :=
  l.foldr insertSortedMB []

/-- The inner loop of `addMultibindings`: collect the maximal run of leading
entries whose key is `t`, returning their data and the remaining entries. -/
def takeGroup (t : TypeId) :
    List (TypeId × MultibindingData) →
    List MultibindingData × List (TypeId × MultibindingData)
  | [] => ([], [])
  | (t', d) :: rest =>
    if t' = t then
      let gr := takeGroup t rest
      (d :: gr.1, gr.2)
    else ([], (t', d) :: rest)

theorem takeGroup_rest_length (t : TypeId) :
    ∀ l : List (TypeId × MultibindingData), (takeGroup t l).2.length ≤ l.length
  | [] => by simp [takeGroup]
  | (t', d) :: rest => by
    simp only [takeGroup]
    split
    · exact le_trans (takeGroup_rest_length t rest) (Nat.le_succ _)
    · simp

/-- The accounting step of the inner loop: each provider is classified
individually as allocation-needing or externally supplied. -/
def accountGroup (t : TypeId) (fsad : FixedSizeAllocatorData)
    (grp : List MultibindingData) : FixedSizeAllocatorData :=
  grp.foldl (fun f md =>
    if md.needs_allocation then f.addType t else f.addExternallyAllocatedType t) fsad

/-- The merge loop of `addMultibindings` over the (sorted) vector: for each
run of entries with the same type, fetch (or default-construct) that type's
entry in the in/out map, overwrite its accessor with the run head's accessor,
append one element per provider of the run, and account each provider in the
allocator plan. -/
def addMultibindingsLoop (fsad : FixedSizeAllocatorData)
    (multibindings : List (TypeId × NormalizedMultibindingData)) :
    List (TypeId × MultibindingData) →
    List (TypeId × NormalizedMultibindingData) × FixedSizeAllocatorData
  | [] => (multibindings, fsad)
  | (t, d) :: rest =>
    let b := (findA multibindings t).getD ⟨[], 0⟩
    let grp := d :: (takeGroup t rest).1
    let entry : NormalizedMultibindingData :=
      ⟨b.elems ++ grp.map Elem.mk, d.get_multibindings_vector⟩
    addMultibindingsLoop (accountGroup t fsad grp) (insertA multibindings t entry)
      (takeGroup t rest).2
termination_by l => l.length
decreasing_by
  simp only [List.length_cons]
  exact Nat.lt_succ_of_le (takeGroup_rest_length _ _)

/-- `BindingNormalization::addMultibindings`: sort the raw multibinding vector
by type and merge each run into the in/out multibindings map, updating the
allocator accumulator. -/
def addMultibindings (multibindings : List (TypeId × NormalizedMultibindingData))
    (fixed_size_allocator_data : FixedSizeAllocatorData)
    (multibindingsVector : List (TypeId × MultibindingData)) :
    List (TypeId × NormalizedMultibindingData) × FixedSizeAllocatorData :=
  addMultibindingsLoop fixed_size_allocator_data multibindings (sortMB multibindingsVector)

/-! ## Lazy-component expansion (`BindingNormalization::expandLazyComponents`) -/

/-- `LazyComponent`: a deferred component installer, comparable and hashable by
content (the type token of the installer function plus its closed-over
arguments, modelled opaquely). -/
structure LazyComponent where
  fun_type_id : TypeId
  args : Nat
deriving DecidableEq, Repr

def LazyComponent.getFunTypeId (c : LazyComponent) : TypeId := c.fun_type_id

/-- What one lazy component's `addBindings` call contributes: bindings,
multibindings and compression candidates appended to the accumulating lists,
plus further lazy components pushed onto the work-list.  The behavior of the
virtual `LazyComponent::addBindings` is an input of the algorithm, supplied
below as a function `LazyComponent → ComponentContribution`. -/
structure ComponentContribution where
  bindings : List (TypeId × BindingData)
  multibindings : List (TypeId × MultibindingData)
  compressed_bindings : List CompressedBinding
  installed_components : List LazyComponent
deriving DecidableEq, Repr

/-- `ComponentStorage`, restricted to the fields `expandLazyComponents` uses:
the work-list of not-yet-expanded lazy components (`none` is the empty
`unique_ptr` used as an expansion-boundary marker; the head of the list is the
back of the C++ vector) and the accumulating lists. -/
structure ComponentStorage where
  lazy_components : List (Option LazyComponent)
  bindings : List (TypeId × BindingData)
  multibindings : List (TypeId × MultibindingData)
  compressed_bindings : List CompressedBinding
deriving DecidableEq, Repr

/-- The loop state of `expandLazyComponents`: the component storage plus the
expansion stack (head = most deeply nested), the in-progress set and the
fully-expanded set (both modelled as lists used as sets with content
equality). -/
structure ExpandState where
  lazy_components : List (Option LazyComponent)
  bindings : List (TypeId × BindingData)
  multibindings : List (TypeId × MultibindingData)
  compressed_bindings : List CompressedBinding
  components_expansion_stack : List LazyComponent
  components_with_expansion_in_progress : List LazyComponent
  fully_expanded_components : List LazyComponent
deriving DecidableEq, Repr

/-- The diagnostic data printed by `printLazyComponentInstallationLoop`: the
top-level component's type token, the expansion stack contents in
outer-to-inner order, and the repeated component. -/
structure InstallationLoopError where
  toplevel_component_fun_type_id : TypeId
  stack : List LazyComponent
  last_component : LazyComponent
deriving DecidableEq, Repr

/-- One line of the fatal installation-loop diagnostic: either a printed type
token or the `<-- The loop starts here` marker. -/
inductive TraceLine where
  | typeId (t : TypeId)
  | loopStartMarker
deriving DecidableEq, Repr

/-- `printLazyComponentInstallationLoop`: the top-level token, then the stack
from outer to inner with the marker line emitted before each component equal
to the repeated one, then the repeated component's token. -/
def printLazyComponentInstallationLoop (e : InstallationLoopError) : List TraceLine :=
  TraceLine.typeId e.toplevel_component_fun_type_id ::
    (e.stack.flatMap (fun c =>
      if c = e.last_component then
        [TraceLine.loopStartMarker, TraceLine.typeId c.getFunTypeId]
      else [TraceLine.typeId c.getFunTypeId])
    ++ [TraceLine.typeId e.last_component.getFunTypeId])

/-- The outcome of one iteration of the expansion loop. -/
inductive StepResult where
  | done (st : ExpandState)
  | next (st : ExpandState)
  | loopError (e : InstallationLoopError)
deriving DecidableEq, Repr

/-- One iteration of the `while` loop of `expandLazyComponents`.
A popped boundary marker moves the top of the expansion stack into the
fully-expanded set (erasing it from the in-progress set); a component already
fully expanded is discarded; a component already in progress is an
installation cycle, reported fatally; otherwise the popped slot is replaced by
a boundary marker, the component is pushed onto the expansion stack and the
in-progress set, and its `addBindings` contribution is applied. -/
def expandStep (install : LazyComponent → ComponentContribution)
    (toplevel_component_fun_type_id : TypeId) (st : ExpandState) : StepResult :=
  match st.lazy_components with
  | [] => .done st
  | none :: rest =>
    match st.components_expansion_stack with
    | [] => .next { st with lazy_components := rest }
    | c :: srest =>
      .next { st with
        lazy_components := rest
        components_expansion_stack := srest
        components_with_expansion_in_progress :=
          st.components_with_expansion_in_progress.filter (fun x => x ≠ c)
        fully_expanded_components := c :: st.fully_expanded_components }
  | some c :: rest =>
    if c ∈ st.fully_expanded_components then
      .next { st with lazy_components := rest }
    else if c ∈ st.components_with_expansion_in_progress then
      .loopError ⟨toplevel_component_fun_type_id,
        st.components_expansion_stack.reverse, c⟩
    else
      let contrib := install c
      .next { st with
        lazy_components := contrib.installed_components.map some ++ none :: rest
        bindings := st.bindings ++ contrib.bindings
        multibindings := st.multibindings ++ contrib.multibindings
        compressed_bindings := st.compressed_bindings ++ contrib.compressed_bindings
        components_expansion_stack := c :: st.components_expansion_stack
        components_with_expansion_in_progress :=
          c :: st.components_with_expansion_in_progress }

/-- The outcome of running the expansion loop with a given amount of fuel. -/
inductive ExpandResult where
  | ok (st : ExpandState)
  | fatal (e : InstallationLoopError)
  | outOfFuel
deriving DecidableEq, Repr

/-- The `while` loop of `expandLazyComponents`, fueled: the C++ loop has no
intrinsic bound (an install graph generating ever-new components never
terminates), so the embedding runs a given number of iterations. -/
def expandLoop (install : LazyComponent → ComponentContribution)
    (toplevel_component_fun_type_id : TypeId) :
    Nat → ExpandState → ExpandResult
  | 0, _ => .outOfFuel
  | fuel + 1, st =>
    match expandStep install toplevel_component_fun_type_id st with
    | .done st' => .ok st'
    | .loopError e => .fatal e
    | .next st' => expandLoop install toplevel_component_fun_type_id fuel st'

/-- The initial loop state: the storage's work-list and accumulators, with the
expansion stack and both sets empty. -/
def initialExpandState (component : ComponentStorage) : ExpandState :=
  ⟨component.lazy_components, component.bindings, component.multibindings,
    component.compressed_bindings, [], [], []⟩

/-- `BindingNormalization::expandLazyComponents`, fueled. -/
def expandLazyComponents (install : LazyComponent → ComponentContribution)
    (component : ComponentStorage) (toplevel_component_fun_type_id : TypeId)
    (fuel : Nat) : ExpandResult :=
  expandLoop install toplevel_component_fun_type_id fuel (initialExpandState component)

/-- Whether a run ended in the fatal installation-loop diagnostic. -/
def ExpandResult.isFatal : ExpandResult → Bool
  | .fatal _ => true
  | _ => false

/-- The diagnostic trace of a fatal run (empty otherwise). -/
def ExpandResult.fatalTrace : ExpandResult → List TraceLine
  | .fatal e => printLazyComponentInstallationLoop e
  | _ => []

/-- The merged elements `addMultibindings` produces for type `T` from the raw
vector: one per provider of `T`, in sorted-vector order. -/
def newElemsFor (T : TypeId) (mbv : List (TypeId × MultibindingData)) : List Elem :=
  ((sortMB mbv).filter (fun p => p.1 = T)).map (fun p => Elem.mk p.2)

/-! ## Association-list lemmas -/

theorem findA_insertA_self {β : Type} (m : List (TypeId × β)) (a : TypeId) (b : β) :
    findA (insertA m a b) a = some b := by
  induction m with
  | nil => simp [insertA, findA]
  | cons p rest ih =>
    obtain ⟨k, v⟩ := p
    by_cases h : k = a <;> simp [insertA, findA, h, ih]

theorem findA_insertA_ne {β : Type} :
    ∀ (m : List (TypeId × β)) (a c : TypeId) (b : β), c ≠ a →
      findA (insertA m a b) c = findA m c
  | [], a, c, b, h => by simp [insertA, findA, Ne.symm h]
  | (k, v) :: rest, a, c, b, h => by
    by_cases hk : k = a
    · subst hk
      simp [insertA, findA, Ne.symm h]
    · simp [insertA, findA, hk, findA_insertA_ne rest a c b h]

theorem findA_eraseA_self {β : Type} :
    ∀ (m : List (TypeId × β)) (a : TypeId), findA (eraseA m a) a = none
  | [], a => by simp [eraseA, findA]
  | (k, v) :: rest, a => by
    by_cases hk : k = a
    · simp [eraseA, findA, hk, findA_eraseA_self rest a]
    · simp [eraseA, findA, hk, findA_eraseA_self rest a]

theorem findA_eraseA_ne {β : Type} :
    ∀ (m : List (TypeId × β)) (a c : TypeId), c ≠ a →
      findA (eraseA m a) c = findA m c
  | [], a, c, h => by simp [eraseA, findA]
  | (k, v) :: rest, a, c, h => by
    by_cases hk : k = a
    · subst hk
      simp [eraseA, findA, Ne.symm h, findA_eraseA_ne rest k c h]
    · simp [eraseA, findA, hk, findA_eraseA_ne rest a c h]

theorem mem_insertA {β : Type} :
    ∀ (m : List (TypeId × β)) (a : TypeId) (b : β) (p : TypeId × β),
      p ∈ insertA m a b → p = (a, b) ∨ p ∈ m
  | [], a, b, p, h => by simpa [insertA] using h
  | (k, v) :: rest, a, b, p, h => by
    by_cases hk : k = a
    · subst hk
      simp only [insertA, if_true, eq_self_iff_true, List.mem_cons] at h
      rcases h with h | h
      · exact Or.inl h
      · exact Or.inr (List.mem_cons_of_mem _ h)
    · simp only [insertA, if_neg hk, List.mem_cons] at h
      rcases h with h | h
      · exact Or.inr (List.mem_cons.mpr (Or.inl h))
      · rcases mem_insertA rest a b p h with h' | h'
        · exact Or.inl h'
        · exact Or.inr (List.mem_cons_of_mem _ h')

theorem mem_eraseA {β : Type} :
    ∀ (m : List (TypeId × β)) (a : TypeId) (p : TypeId × β),
      p ∈ eraseA m a → p ∈ m
  | [], a, p, h => by simpa [eraseA] using h
  | (k, v) :: rest, a, p, h => by
    by_cases hk : k = a
    · simp only [eraseA, if_pos hk] at h
      exact List.mem_cons_of_mem _ (mem_eraseA rest a p h)
    · simp only [eraseA, if_neg hk, List.mem_cons] at h
      rcases h with h | h
      · exact List.mem_cons.mpr (Or.inl h)
      · exact List.mem_cons_of_mem _ (mem_eraseA rest a p h)

theorem findA_some_mem {β : Type} :
    ∀ (m : List (TypeId × β)) (a : TypeId) (b : β),
      findA m a = some b → (a, b) ∈ m
  | [], a, b, h => by simp [findA] at h
  | (k, v) :: rest, a, b, h => by
    by_cases hk : k = a
    · subst hk
      simp only [findA, if_true, eq_self_iff_true, Option.some.injEq] at h
      subst h
      exact List.mem_cons_self _ _
    · simp only [findA, if_neg hk] at h
      exact List.mem_cons_of_mem _ (findA_some_mem rest a b h)

theorem findA_none_not_mem {β : Type} :
    ∀ (m : List (TypeId × β)) (a : TypeId), findA m a = none →
      ∀ b : β, (a, b) ∉ m
  | [], a, h => by simp
  | (k, v) :: rest, a, h => by
    by_cases hk : k = a
    · simp [findA, hk] at h
    · simp only [findA, if_neg hk] at h
      intro b hb
      rcases List.mem_cons.mp hb with hb | hb
      · exact hk (congrArg Prod.fst hb).symm
      · exact findA_none_not_mem rest a h b hb

theorem mem_findA_isSome {β : Type} (m : List (TypeId × β)) (a : TypeId) (b : β)
    (h : (a, b) ∈ m) : (findA m a).isSome = true := by
  cases hf : findA m a with
  | none => exact absurd h (findA_none_not_mem m a hf b)
  | some c => rfl

theorem mem_keysA_findA {β : Type} (m : List (TypeId × β)) (a : TypeId)
    (h : a ∈ keysA m) : (findA m a).isSome = true := by
  rcases List.mem_map.mp h with ⟨p, hp, hfst⟩
  obtain ⟨k, v⟩ := p
  cases hfst
  exact mem_findA_isSome m _ v hp

theorem findA_none_not_mem_keys {β : Type} (m : List (TypeId × β)) (a : TypeId)
    (h : findA m a = none) : a ∉ keysA m := by
  intro hmem
  have := mem_keysA_findA m a hmem
  rw [h] at this
  simp at this

theorem mem_keysA_insertA {β : Type} (m : List (TypeId × β)) (a : TypeId) (b : β)
    (x : TypeId) (h : x ∈ keysA (insertA m a b)) : x = a ∨ x ∈ keysA m := by
  rcases List.mem_map.mp h with ⟨p, hp, hfst⟩
  rcases mem_insertA m a b p hp with h' | h'
  · left
    rw [← hfst, h']
  · right
    rw [← hfst]
    exact List.mem_map_of_mem Prod.fst h'

theorem nodupKeys_insertA {β : Type} (m : List (TypeId × β)) (a : TypeId) (b : β)
    (h : NodupKeys m) : NodupKeys (insertA m a b) := by
  induction m with
  | nil => simp [insertA, NodupKeys, keysA]
  | cons q rest ih =>
    obtain ⟨k, v⟩ := q
    simp only [NodupKeys, keysA, List.map_cons, List.nodup_cons] at h
    by_cases hk : k = a
    · subst hk
      simpa [insertA, NodupKeys, keysA] using h
    · have ih' := ih h.2
      simp only [insertA, if_neg hk, NodupKeys, keysA, List.map_cons, List.nodup_cons]
      refine ⟨?_, ih'⟩
      intro hmem
      rcases mem_keysA_insertA rest a b k hmem with h' | h'
      · exact hk h'
      · exact h.1 h'

theorem nodupKeys_eraseA {β : Type} (m : List (TypeId × β)) (a : TypeId)
    (h : NodupKeys m) : NodupKeys (eraseA m a) := by
  induction m with
  | nil => simpa [eraseA] using h
  | cons q rest ih =>
    obtain ⟨k, v⟩ := q
    simp only [NodupKeys, keysA, List.map_cons, List.nodup_cons] at h
    by_cases hk : k = a
    · simpa [eraseA, hk] using ih h.2
    · simp only [eraseA, if_neg hk, NodupKeys, keysA, List.map_cons, List.nodup_cons]
      refine ⟨?_, ih h.2⟩
      intro hmem
      rcases List.mem_map.mp hmem with ⟨p, hp, hfst⟩
      exact h.1 (hfst ▸ List.mem_map_of_mem Prod.fst (mem_eraseA rest a p hp))

theorem countId_append (l1 l2 : List TypeId) (a : TypeId) :
    countId (l1 ++ l2) a = countId l1 a + countId l2 a := by
  simp [countId, List.filter_append]

theorem countId_eq_zero_of_not_mem :
    ∀ (l : List TypeId) (a : TypeId), a ∉ l → countId l a = 0
  | [], a, _ => by simp [countId]
  | x :: rest, a, h => by
    have hx : x ≠ a := fun hh => h (hh ▸ List.mem_cons_self _ _)
    have hr : a ∉ rest := fun hh => h (List.mem_cons_of_mem _ hh)
    simpa [countId, List.filter_cons, hx] using countId_eq_zero_of_not_mem rest a hr

theorem countId_le_one_of_nodup :
    ∀ (l : List TypeId) (a : TypeId), l.Nodup → countId l a ≤ 1
  | [], a, _ => by simp [countId]
  | x :: rest, a, h => by
    rw [List.nodup_cons] at h
    by_cases hx : x = a
    · subst hx
      have hz : countId rest x = 0 := countId_eq_zero_of_not_mem rest x h.1
      have hc : countId (x :: rest) x = countId rest x + 1 := by
        simp [countId, List.filter_cons]
      omega
    · simpa [countId, List.filter_cons, hx] using countId_le_one_of_nodup rest a h.2

theorem countId_pos_of_mem :
    ∀ (l : List TypeId) (a : TypeId), a ∈ l → 1 ≤ countId l a
  | [], a, h => by simp at h
  | x :: rest, a, h => by
    rcases List.mem_cons.mp h with h' | h'
    · subst h'
      simp [countId, List.filter_cons]
    · have ih := countId_pos_of_mem rest a h'
      by_cases hx : x = a
      · have hc : countId (x :: rest) a = countId rest a + 1 := by
          simp [countId, List.filter_cons, hx]
        omega
      · have hc : countId (x :: rest) a = countId rest a := by
          simp [countId, List.filter_cons, hx]
        omega

theorem countKey_le_one_of_nodup {β : Type} (m : List (TypeId × β)) (a : TypeId)
    (h : NodupKeys m) : countKey m a ≤ 1 :=
  countId_le_one_of_nodup _ a h

theorem countKey_eq_one {β : Type} (m : List (TypeId × β)) (a : TypeId) (b : β)
    (h : NodupKeys m) (hf : findA m a = some b) : countKey m a = 1 := by
  have h1 := countKey_le_one_of_nodup m a h
  have h2 : 1 ≤ countKey m a :=
    countId_pos_of_mem _ a (List.mem_map_of_mem Prod.fst (findA_some_mem m a b hf))
  omega

theorem countKey_eq_filter_length {β : Type} (m : List (TypeId × β)) (a : TypeId) :
    countKey m a = (m.filter (fun p => p.1 = a)).length := by
  induction m with
  | nil => simp [countKey, countId, keysA]
  | cons q rest ih =>
    by_cases hq : q.1 = a <;>
      simp [countKey, countId, keysA, List.filter_cons, hq] at * <;> omega

/-! ## Generic fold lemmas for the erase-only passes -/

theorem foldl_mem_sub {α β : Type} (f : List (TypeId × β) → α → List (TypeId × β))
    (hf : ∀ m a, ∀ x ∈ f m a, x ∈ m) :
    ∀ (l : List α) (m : List (TypeId × β)) (x : TypeId × β),
      x ∈ List.foldl f m l → x ∈ m := by
  intro l
  induction l with
  | nil => intro m x h; simpa using h
  | cons a rest ih =>
    intro m x h
    exact hf m a x (ih (f m a) x h)

theorem foldl_findA_invar {α β : Type} (C : TypeId)
    (f : List (TypeId × β) → α → List (TypeId × β))
    (hf : ∀ m a, findA (f m a) C = none ∨ findA (f m a) C = findA m C) :
    ∀ (l : List α) (m : List (TypeId × β)),
      findA (List.foldl f m l) C = none ∨ findA (List.foldl f m l) C = findA m C := by
  intro l
  induction l with
  | nil => intro m; simp
  | cons a rest ih =>
    intro m
    rcases ih (f m a) with h | h
    · exact Or.inl h
    · rcases hf m a with h' | h'
      · exact Or.inl (h.trans h')
      · exact Or.inr (h.trans h')

theorem foldl_findA_none {α β : Type} (C : TypeId)
    (f : List (TypeId × β) → α → List (TypeId × β))
    (hf : ∀ m a, findA (f m a) C = none ∨ findA (f m a) C = findA m C)
    (l : List α) (m : List (TypeId × β)) (h : findA m C = none) :
    findA (List.foldl f m l) C = none := by
  rcases foldl_findA_invar C f hf l m with h' | h'
  · exact h'
  · exact h'.trans h

theorem foldl_nodupKeys {α β : Type} (f : List (TypeId × β) → α → List (TypeId × β))
    (hf : ∀ m a, NodupKeys m → NodupKeys (f m a)) :
    ∀ (l : List α) (m : List (TypeId × β)), NodupKeys m → NodupKeys (List.foldl f m l) := by
  intro l
  induction l with
  | nil => intro m h; simpa using h
  | cons a rest ih =>
    intro m h
    exact ih (f m a) (hf m a h)

/-! ## Lemmas about `makeBindingDataMap` -/

theorem makeBindingDataMap_preserves :
    ∀ (l acc m : List (TypeId × BindingData)) (T : TypeId) (d : BindingData),
      makeBindingDataMap l acc = .ok m → findA acc T = some d → findA m T = some d
  | [], acc, m, T, d, hok, hf => by
    simp only [makeBindingDataMap, Except.ok.injEq] at hok
    exact hok ▸ hf
  | (t, b) :: rest, acc, m, T, d, hok, hf => by
    simp only [makeBindingDataMap] at hok
    cases hacc : findA acc t with
    | some b' =>
      simp only [hacc] at hok
      by_cases hb : b = b'
      · rw [if_pos hb] at hok
        exact makeBindingDataMap_preserves rest acc m T d hok hf
      · rw [if_neg hb] at hok
        exact absurd hok (by simp)
    | none =>
      simp only [hacc] at hok
      by_cases ht : T = t
      · subst ht
        rw [hf] at hacc
        exact absurd hacc (by simp)
      · exact makeBindingDataMap_preserves rest (insertA acc t b) m T d hok
          (by rw [findA_insertA_ne acc t T b ht]; exact hf)

theorem makeBindingDataMap_find_of_mem :
    ∀ (l acc m : List (TypeId × BindingData)) (T : TypeId) (d : BindingData),
      makeBindingDataMap l acc = .ok m → (T, d) ∈ l → findA m T = some d
  | [], acc, m, T, d, hok, hmem => by simp at hmem
  | (t, b) :: rest, acc, m, T, d, hok, hmem => by
    simp only [makeBindingDataMap] at hok
    rcases List.mem_cons.mp hmem with hmem' | hmem'
    · injection hmem' with hT hd
      subst hT
      subst hd
      cases hacc : findA acc T with
      | some b' =>
        simp only [hacc] at hok
        by_cases hb : d = b'
        · rw [if_pos hb] at hok
          subst hb
          exact makeBindingDataMap_preserves rest acc m T d hok hacc
        · rw [if_neg hb] at hok
          exact absurd hok (by simp)
      | none =>
        simp only [hacc] at hok
        exact makeBindingDataMap_preserves rest (insertA acc T d) m T d hok
          (findA_insertA_self acc T d)
    · cases hacc : findA acc t with
      | some b' =>
        simp only [hacc] at hok
        by_cases hb : b = b'
        · rw [if_pos hb] at hok
          exact makeBindingDataMap_find_of_mem rest acc m T d hok hmem'
        · rw [if_neg hb] at hok
          exact absurd hok (by simp)
      | none =>
        simp only [hacc] at hok
        exact makeBindingDataMap_find_of_mem rest (insertA acc t b) m T d hok hmem'

theorem makeBindingDataMap_nodup :
    ∀ (l acc m : List (TypeId × BindingData)),
      makeBindingDataMap l acc = .ok m → NodupKeys acc → NodupKeys m
  | [], acc, m, hok, hnd => by
    simp only [makeBindingDataMap, Except.ok.injEq] at hok
    exact hok ▸ hnd
  | (t, b) :: rest, acc, m, hok, hnd => by
    simp only [makeBindingDataMap] at hok
    cases hacc : findA acc t with
    | some b' =>
      simp only [hacc] at hok
      by_cases hb : b = b'
      · rw [if_pos hb] at hok
        exact makeBindingDataMap_nodup rest acc m hok hnd
      · rw [if_neg hb] at hok
        exact absurd hok (by simp)
    | none =>
      simp only [hacc] at hok
      exact makeBindingDataMap_nodup rest (insertA acc t b) m hok
        (nodupKeys_insertA acc t b hnd)

theorem makeBindingDataMap_error (T : TypeId) :
    ∀ (l acc : List (TypeId × BindingData)),
      (∃ d1 d2, d1 ≠ d2 ∧ ((T, d1) ∈ l ∨ findA acc T = some d1) ∧ (T, d2) ∈ l) →
      (∀ T' d' d'', T' ≠ T → ((T', d') ∈ l ∨ findA acc T' = some d') →
        ((T', d'') ∈ l ∨ findA acc T' = some d'') → d' = d'') →
      makeBindingDataMap l acc = .error (.multipleBindings T)
  | [], acc, hconfl, _ => by
    rcases hconfl with ⟨d1, d2, _, _, hd2⟩
    simp at hd2
  | (t, b) :: rest, acc, hconfl, hother => by
    simp only [makeBindingDataMap]
    split
    case h_1 b' hacc =>
      by_cases hb : b = b'
      · rw [if_pos hb]
        subst hb
        refine makeBindingDataMap_error T rest acc ?_ ?_
        · rcases hconfl with ⟨d1, d2, hne, hd1, hd2⟩
          rcases List.mem_cons.mp hd2 with hd2' | hd2'
          · injection hd2' with hT hd
            subst hT
            subst hd
            rcases hd1 with hd1 | hd1
            · rcases List.mem_cons.mp hd1 with hd1' | hd1'
              · exact absurd (congrArg Prod.snd hd1') hne
              · exact ⟨d2, d1, hne.symm, Or.inr hacc, hd1'⟩
            · rw [hd1] at hacc
              injection hacc with hbb
              exact absurd hbb hne
          · refine ⟨d1, d2, hne, ?_, hd2'⟩
            rcases hd1 with hd1 | hd1
            · rcases List.mem_cons.mp hd1 with hd1' | hd1'
              · injection hd1' with hT hd
                subst hT
                subst hd
                exact Or.inr hacc
              · exact Or.inl hd1'
            · exact Or.inr hd1
        · intro T' d' d'' hne hs1 hs2
          refine hother T' d' d'' hne ?_ ?_
          · rcases hs1 with h | h
            · exact Or.inl (List.mem_cons_of_mem _ h)
            · exact Or.inr h
          · rcases hs2 with h | h
            · exact Or.inl (List.mem_cons_of_mem _ h)
            · exact Or.inr h
      · rw [if_neg hb]
        have ht : t = T := by
          by_contra hne
          exact hb (hother t b b' hne (Or.inl (List.mem_cons_self _ _)) (Or.inr hacc))
        rw [ht]
    case h_2 hacc =>
      refine makeBindingDataMap_error T rest (insertA acc t b) ?_ ?_
      · rcases hconfl with ⟨d1, d2, hne, hd1, hd2⟩
        rcases List.mem_cons.mp hd2 with hd2' | hd2'
        · injection hd2' with hT hd
          subst hT
          subst hd
          rcases hd1 with hd1 | hd1
          · rcases List.mem_cons.mp hd1 with hd1' | hd1'
            · exact absurd (congrArg Prod.snd hd1') hne
            · exact ⟨d2, d1, hne.symm, Or.inr (findA_insertA_self acc T d2), hd1'⟩
          · rw [hd1] at hacc
            exact absurd hacc (by simp)
        · refine ⟨d1, d2, hne, ?_, hd2'⟩
          rcases hd1 with hd1 | hd1
          · rcases List.mem_cons.mp hd1 with hd1' | hd1'
            · injection hd1' with hT hd
              subst hT
              subst hd
              exact Or.inr (findA_insertA_self acc T d1)
            · exact Or.inl hd1'
          · by_cases hT : T = t
            · subst hT
              rw [hd1] at hacc
              exact absurd hacc (by simp)
            · exact Or.inr ((findA_insertA_ne acc t T b hT).symm ▸ hd1)
      · intro T' d' d'' hne hs1 hs2
        have conv : ∀ dd : BindingData,
            ((T', dd) ∈ rest ∨ findA (insertA acc t b) T' = some dd) →
            ((T', dd) ∈ (t, b) :: rest ∨ findA acc T' = some dd) := by
          intro dd hs
          rcases hs with h | h
          · exact Or.inl (List.mem_cons_of_mem _ h)
          · by_cases hT : T' = t
            · subst hT
              rw [findA_insertA_self acc T' b] at h
              injection h with hdd
              subst hdd
              exact Or.inl (List.mem_cons_self _ _)
            · rw [findA_insertA_ne acc t T' b hT] at h
              exact Or.inr h
        exact hother T' d' d'' hne (conv d' hs1) (conv d'' hs2)

/-! ## Lemmas about the candidate-pruning passes -/

theorem eraseA_findA_invar {β : Type} (m : List (TypeId × β)) (a C : TypeId) :
    findA (eraseA m a) C = none ∨ findA (eraseA m a) C = findA m C := by
  by_cases h : C = a
  · subst h
    exact Or.inl (findA_eraseA_self m C)
  · exact Or.inr (findA_eraseA_ne m a C h)

theorem eraseDeps_findA_invar (C : TypeId) (m : List (TypeId × (TypeId × BindingData)))
    (ds : List TypeId) :
    findA (eraseDeps m ds) C = none ∨ findA (eraseDeps m ds) C = findA m C :=
  foldl_findA_invar C _ (fun m d => eraseA_findA_invar m d C) ds m

theorem eraseDeps_none_of_mem (C : TypeId) (m : List (TypeId × (TypeId × BindingData)))
    (ds : List TypeId) (h : C ∈ ds) : findA (eraseDeps m ds) C = none := by
  rcases List.append_of_mem h with ⟨s, t, rfl⟩
  unfold eraseDeps
  rw [List.foldl_append, List.foldl_cons]
  exact foldl_findA_none C _ (fun m d => eraseA_findA_invar m d C) t _
    (findA_eraseA_self _ C)

theorem eraseMultibindingDeps_step_invar (C : TypeId)
    (m : List (TypeId × (TypeId × BindingData))) (p : TypeId × MultibindingData) :
    findA (match p.2.deps with | some ds => eraseDeps m ds | none => m) C = none ∨
    findA (match p.2.deps with | some ds => eraseDeps m ds | none => m) C = findA m C := by
  cases hd : p.2.deps with
  | some ds => exact eraseDeps_findA_invar C m ds
  | none => exact Or.inr rfl

theorem eraseMultibindingDeps_findA_invar (C : TypeId)
    (m : List (TypeId × (TypeId × BindingData)))
    (mbv : List (TypeId × MultibindingData)) :
    findA (eraseMultibindingDeps m mbv) C = none ∨
    findA (eraseMultibindingDeps m mbv) C = findA m C :=
  foldl_findA_invar C _ (fun m p => eraseMultibindingDeps_step_invar C m p) mbv m

theorem eraseMultibindingDeps_none (C : TypeId)
    (m : List (TypeId × (TypeId × BindingData)))
    (mbv : List (TypeId × MultibindingData)) (T : TypeId) (md : MultibindingData)
    (ds : List TypeId) (hmem : (T, md) ∈ mbv) (hds : md.deps = some ds)
    (hC : C ∈ ds) : findA (eraseMultibindingDeps m mbv) C = none := by
  rcases List.append_of_mem hmem with ⟨s, t, rfl⟩
  unfold eraseMultibindingDeps
  rw [List.foldl_append, List.foldl_cons]
  refine foldl_findA_none C _ (fun m p => eraseMultibindingDeps_step_invar C m p) t _ ?_
  simp only [hds]
  exact eraseDeps_none_of_mem C _ ds hC

theorem removeExposedTypes_findA_invar (C : TypeId)
    (m : List (TypeId × (TypeId × BindingData))) (exposed : List TypeId) :
    findA (removeExposedTypes m exposed) C = none ∨
    findA (removeExposedTypes m exposed) C = findA m C :=
  foldl_findA_invar C _ (fun m t => eraseA_findA_invar m t C) exposed m

theorem removeExposedTypes_none (C : TypeId)
    (m : List (TypeId × (TypeId × BindingData))) (exposed : List TypeId)
    (h : C ∈ exposed) : findA (removeExposedTypes m exposed) C = none := by
  rcases List.append_of_mem h with ⟨s, t, rfl⟩
  unfold removeExposedTypes
  rw [List.foldl_append, List.foldl_cons]
  exact foldl_findA_none C _ (fun m t => eraseA_findA_invar m t C) t _
    (findA_eraseA_self _ C)

theorem filterDepsInner_findA_invar (C x_id : TypeId)
    (m : List (TypeId × (TypeId × BindingData))) (c : TypeId) :
    findA (filterDepsInner x_id m c) C = none ∨
    findA (filterDepsInner x_id m c) C = findA m C := by
  cases hf : findA m c with
  | some q =>
    simp only [filterDepsInner, hf]
    by_cases hq : q.1 ≠ x_id
    · rw [if_pos hq]
      exact eraseA_findA_invar m c C
    · rw [if_neg hq]
      exact Or.inr rfl
  | none =>
    exact Or.inr (by simp [filterDepsInner, hf])

theorem filterDepsInner_none_of_dep (C x_id : TypeId)
    (m : List (TypeId × (TypeId × BindingData))) (q : TypeId × BindingData)
    (hm : findA m C = some q) (hv : q.1 ≠ x_id) :
    findA (filterDepsInner x_id m C) C = none := by
  simp only [filterDepsInner, hm]
  rw [if_pos hv]
  exact findA_eraseA_self m C

theorem filterDepsStep_findA_invar (C : TypeId)
    (m : List (TypeId × (TypeId × BindingData))) (p : TypeId × BindingData) :
    findA (filterDepsStep m p) C = none ∨ findA (filterDepsStep m p) C = findA m C := by
  unfold filterDepsStep
  by_cases hcr : p.2.isCreated
  · rw [if_pos hcr]
    exact Or.inr rfl
  · rw [if_neg hcr]
    exact foldl_findA_invar C _ (fun m c => filterDepsInner_findA_invar C p.1 m c)
      p.2.getDeps m

theorem filterDeps_findA_invar (C : TypeId)
    (m : List (TypeId × (TypeId × BindingData)))
    (bm : List (TypeId × BindingData)) :
    findA (filterDeps m bm) C = none ∨ findA (filterDeps m bm) C = findA m C :=
  foldl_findA_invar C _ (fun m p => filterDepsStep_findA_invar C m p) bm m

theorem filterDepsStep_none (C : TypeId)
    (m : List (TypeId × (TypeId × BindingData))) (p : TypeId × BindingData)
    (hcr : p.2.isCreated = false) (hdep : C ∈ p.2.getDeps)
    (hval : ∀ v, findA m C = some v → v.1 ≠ p.1) :
    findA (filterDepsStep m p) C = none := by
  unfold filterDepsStep
  rw [if_neg (by simp [hcr])]
  rcases List.append_of_mem hdep with ⟨s, t, hds⟩
  rw [hds, List.foldl_append, List.foldl_cons]
  refine foldl_findA_none C _ (fun m c => filterDepsInner_findA_invar C p.1 m c) t _ ?_
  cases hm1 : findA (List.foldl (filterDepsInner p.1) m s) C with
  | none =>
    simp only [filterDepsInner, hm1]
  | some q =>
    have hq : q.1 ≠ p.1 := by
      rcases foldl_findA_invar C _ (fun m c => filterDepsInner_findA_invar C p.1 m c)
          s m with h1 | h1
      · exact absurd (h1.symm.trans hm1) (by simp)
      · exact hval q (h1.symm.trans hm1)
    exact filterDepsInner_none_of_dep C p.1 _ q hm1 hq

theorem filterDeps_none (C : TypeId)
    (m : List (TypeId × (TypeId × BindingData)))
    (bm : List (TypeId × BindingData)) (X : TypeId) (dX : BindingData)
    (hmem : (X, dX) ∈ bm) (hcr : dX.isCreated = false) (hdep : C ∈ dX.getDeps)
    (hval : ∀ v, findA m C = some v → v.1 ≠ X) :
    findA (filterDeps m bm) C = none := by
  rcases List.append_of_mem hmem with ⟨s, t, hds⟩
  unfold filterDeps
  rw [hds, List.foldl_append, List.foldl_cons]
  refine foldl_findA_none C _ (fun m p => filterDepsStep_findA_invar C m p) t _ ?_
  rcases foldl_findA_invar C _ (fun m p => filterDepsStep_findA_invar C m p) s m with h1 | h1
  · rcases filterDepsStep_findA_invar C (List.foldl filterDepsStep m s) (X, dX) with h2 | h2
    · exact h2
    · exact h2.trans h1
  · refine filterDepsStep_none C _ (X, dX) hcr hdep ?_
    intro v hv
    rw [h1] at hv
    exact hval v hv

/-! ## Lemmas about `performCompression` and the candidate map -/

theorem mem_makeCompressedBindingsMap_aux :
    ∀ (cbv : List CompressedBinding) (acc : List (TypeId × (TypeId × BindingData)))
      (p : TypeId × (TypeId × BindingData)),
      p ∈ cbv.foldl (fun m cb => insertA m cb.class_id (cb.interface_id, cb.binding_data)) acc →
      p ∈ acc ∨ ∃ cb ∈ cbv, p = (cb.class_id, (cb.interface_id, cb.binding_data))
  | [], acc, p, h => Or.inl (by simpa using h)
  | cb :: rest, acc, p, h => by
    rw [List.foldl_cons] at h
    rcases mem_makeCompressedBindingsMap_aux rest _ p h with h' | h'
    · rcases mem_insertA acc cb.class_id _ p h' with h'' | h''
      · exact Or.inr ⟨cb, List.mem_cons_self _ _, h''⟩
      · exact Or.inl h''
    · rcases h' with ⟨cb', hmem, heq⟩
      exact Or.inr ⟨cb', List.mem_cons_of_mem _ hmem, heq⟩

theorem mem_makeCompressedBindingsMap (cbv : List CompressedBinding)
    (p : TypeId × (TypeId × BindingData)) (h : p ∈ makeCompressedBindingsMap cbv) :
    ∃ cb ∈ cbv, p = (cb.class_id, (cb.interface_id, cb.binding_data)) := by
  rcases mem_makeCompressedBindingsMap_aux cbv [] p h with h' | h'
  · simp at h'
  · exact h'

theorem mem_eraseDeps_sub (m : List (TypeId × (TypeId × BindingData)))
    (ds : List TypeId) (p : TypeId × (TypeId × BindingData))
    (h : p ∈ eraseDeps m ds) : p ∈ m :=
  foldl_mem_sub _ (fun m d x hx => mem_eraseA m d x hx) ds m p h

theorem mem_eraseMultibindingDeps_sub (m : List (TypeId × (TypeId × BindingData)))
    (mbv : List (TypeId × MultibindingData)) (p : TypeId × (TypeId × BindingData))
    (h : p ∈ eraseMultibindingDeps m mbv) : p ∈ m := by
  refine foldl_mem_sub _ ?_ mbv m p h
  intro m q x hx
  cases hd : q.2.deps with
  | some ds =>
    rw [hd] at hx
    exact mem_eraseDeps_sub m ds x hx
  | none =>
    rw [hd] at hx
    exact hx

theorem mem_removeExposedTypes_sub (m : List (TypeId × (TypeId × BindingData)))
    (exposed : List TypeId) (p : TypeId × (TypeId × BindingData))
    (h : p ∈ removeExposedTypes m exposed) : p ∈ m :=
  foldl_mem_sub _ (fun m t x hx => mem_eraseA m t x hx) exposed m p h

theorem mem_filterDepsInner_sub (x_id : TypeId)
    (m : List (TypeId × (TypeId × BindingData))) (c : TypeId)
    (p : TypeId × (TypeId × BindingData)) (h : p ∈ filterDepsInner x_id m c) : p ∈ m := by
  cases hf : findA m c with
  | some q =>
    simp only [filterDepsInner, hf] at h
    by_cases hq : q.1 ≠ x_id
    · rw [if_pos hq] at h
      exact mem_eraseA m c p h
    · rwa [if_neg hq] at h
  | none =>
    simp only [filterDepsInner, hf] at h
    exact h

theorem mem_filterDepsStep_sub (m : List (TypeId × (TypeId × BindingData)))
    (q : TypeId × BindingData) (p : TypeId × (TypeId × BindingData))
    (h : p ∈ filterDepsStep m q) : p ∈ m := by
  unfold filterDepsStep at h
  by_cases hcr : q.2.isCreated
  · rwa [if_pos hcr] at h
  · rw [if_neg hcr] at h
    exact foldl_mem_sub _ (fun m c x hx => mem_filterDepsInner_sub q.1 m c x hx)
      q.2.getDeps m p h

theorem mem_filterDeps_sub (m : List (TypeId × (TypeId × BindingData)))
    (bm : List (TypeId × BindingData)) (p : TypeId × (TypeId × BindingData))
    (h : p ∈ filterDeps m bm) : p ∈ m :=
  foldl_mem_sub _ (fun m q x hx => mem_filterDepsStep_sub m q x hx) bm m p h

/-- Every entry of the filtered candidate map comes from some candidate of the
input vector. -/
theorem mem_filteredCompressedBindingsMap (binding_data_map : List (TypeId × BindingData))
    (cbv : List CompressedBinding) (mbv : List (TypeId × MultibindingData))
    (exposed_types : List TypeId) (p : TypeId × (TypeId × BindingData))
    (h : p ∈ filteredCompressedBindingsMap binding_data_map cbv mbv exposed_types) :
    ∃ cb ∈ cbv, p = (cb.class_id, (cb.interface_id, cb.binding_data)) := by
  unfold filteredCompressedBindingsMap at h
  exact mem_makeCompressedBindingsMap cbv p
    (mem_eraseMultibindingDeps_sub _ mbv p
      (mem_removeExposedTypes_sub _ exposed_types p
        (mem_filterDeps_sub _ binding_data_map p h)))

theorem nodupKeys_makeCompressedBindingsMap (cbv : List CompressedBinding) :
    NodupKeys (makeCompressedBindingsMap cbv) := by
  unfold makeCompressedBindingsMap
  refine foldl_nodupKeys _ ?_ cbv [] ?_
  · intro m cb h
    exact nodupKeys_insertA m cb.class_id _ h
  · simp [NodupKeys, keysA]

theorem nodupKeys_eraseDeps (m : List (TypeId × (TypeId × BindingData)))
    (ds : List TypeId) (h : NodupKeys m) : NodupKeys (eraseDeps m ds) :=
  foldl_nodupKeys _ (fun m d h => nodupKeys_eraseA m d h) ds m h

theorem nodupKeys_filteredCompressedBindingsMap
    (binding_data_map : List (TypeId × BindingData)) (cbv : List CompressedBinding)
    (mbv : List (TypeId × MultibindingData)) (exposed_types : List TypeId) :
    NodupKeys (filteredCompressedBindingsMap binding_data_map cbv mbv exposed_types) := by
  unfold filteredCompressedBindingsMap
  refine foldl_nodupKeys _ (fun m q h => ?_) binding_data_map _
    (foldl_nodupKeys _ (fun m t h => nodupKeys_eraseA m t h) exposed_types _
      (foldl_nodupKeys _ (fun m q h => ?_) mbv _ (nodupKeys_makeCompressedBindingsMap cbv)))
  · unfold filterDepsStep
    by_cases hcr : q.2.isCreated
    · rwa [if_pos hcr]
    · rw [if_neg hcr]
      refine foldl_nodupKeys _ (fun m c h => ?_) q.2.getDeps m h
      cases hf : findA m c with
      | some qq =>
        simp only [filterDepsInner, hf]
        by_cases hq : qq.1 ≠ q.1
        · rw [if_pos hq]
          exact nodupKeys_eraseA m c h
        · rwa [if_neg hq]
      | none =>
        simp only [filterDepsInner, hf]
        exact h
  · cases hd : q.2.deps with
    | some ds => exact nodupKeys_eraseDeps m ds h
    | none => exact h

theorem pc_foldl_untouched (C : TypeId) :
    ∀ (cm : List (TypeId × (TypeId × BindingData))) (bm : List (TypeId × BindingData))
      (info : List (TypeId × BindingCompressionInfo)),
      (∀ p ∈ cm, p.1 ≠ C ∧ p.2.1 ≠ C) →
      findA (cm.foldl performCompressionStep (bm, info)).1 C = findA bm C
  | [], bm, info, _ => by simp
  | p :: rest, bm, info, h => by
    rw [List.foldl_cons]
    have hp := h p (List.mem_cons_self _ _)
    have hrest : ∀ q ∈ rest, q.1 ≠ C ∧ q.2.1 ≠ C :=
      fun q hq => h q (List.mem_cons_of_mem _ hq)
    cases hI : findA bm p.2.1 with
    | some i_bd =>
      cases hc : findA bm p.1 with
      | some c_bd =>
        have : performCompressionStep (bm, info) p =
            (eraseA (insertA bm p.2.1 p.2.2) p.1,
             insertA info p.1 ⟨p.2.1, i_bd, c_bd⟩) := by
          simp [performCompressionStep, hI, hc]
        rw [this, pc_foldl_untouched C rest _ _ hrest]
        rw [findA_eraseA_ne _ p.1 C (Ne.symm hp.1)]
        rw [findA_insertA_ne _ p.2.1 C p.2.2 (Ne.symm hp.2)]
      | none =>
        have : performCompressionStep (bm, info) p = (bm, info) := by
          simp [performCompressionStep, hI, hc]
        rw [this, pc_foldl_untouched C rest _ _ hrest]
    | none =>
      have : performCompressionStep (bm, info) p = (bm, info) := by
        simp [performCompressionStep, hI]
      rw [this, pc_foldl_untouched C rest _ _ hrest]

theorem pc_foldl_nodup :
    ∀ (cm : List (TypeId × (TypeId × BindingData))) (bm : List (TypeId × BindingData))
      (info : List (TypeId × BindingCompressionInfo)),
      NodupKeys bm → NodupKeys (cm.foldl performCompressionStep (bm, info)).1
  | [], bm, info, h => by simpa using h
  | p :: rest, bm, info, h => by
    rw [List.foldl_cons]
    cases hI : findA bm p.2.1 with
    | some i_bd =>
      cases hc : findA bm p.1 with
      | some c_bd =>
        have heq : performCompressionStep (bm, info) p =
            (eraseA (insertA bm p.2.1 p.2.2) p.1,
             insertA info p.1 ⟨p.2.1, i_bd, c_bd⟩) := by
          simp [performCompressionStep, hI, hc]
        rw [heq]
        exact pc_foldl_nodup rest _ _
          (nodupKeys_eraseA _ p.1 (nodupKeys_insertA bm p.2.1 p.2.2 h))
      | none =>
        have heq : performCompressionStep (bm, info) p = (bm, info) := by
          simp [performCompressionStep, hI, hc]
        rw [heq]
        exact pc_foldl_nodup rest bm info h
    | none =>
      have heq : performCompressionStep (bm, info) p = (bm, info) := by
        simp [performCompressionStep, hI]
      rw [heq]
      exact pc_foldl_nodup rest bm info h

theorem pc_foldl_some (C : TypeId) :
    ∀ (cm : List (TypeId × (TypeId × BindingData))) (bm : List (TypeId × BindingData))
      (info : List (TypeId × BindingCompressionInfo)),
      (∀ p ∈ cm, p.1 ≠ C) → (findA bm C).isSome = true →
      (findA (cm.foldl performCompressionStep (bm, info)).1 C).isSome = true
  | [], bm, info, _, hsome => by simpa using hsome
  | p :: rest, bm, info, h, hsome => by
    rw [List.foldl_cons]
    have hp := h p (List.mem_cons_self _ _)
    have hrest : ∀ q ∈ rest, q.1 ≠ C := fun q hq => h q (List.mem_cons_of_mem _ hq)
    cases hI : findA bm p.2.1 with
    | some i_bd =>
      cases hc : findA bm p.1 with
      | some c_bd =>
        have heq : performCompressionStep (bm, info) p =
            (eraseA (insertA bm p.2.1 p.2.2) p.1,
             insertA info p.1 ⟨p.2.1, i_bd, c_bd⟩) := by
          simp [performCompressionStep, hI, hc]
        rw [heq]
        refine pc_foldl_some C rest _ _ hrest ?_
        rw [findA_eraseA_ne _ p.1 C (Ne.symm hp)]
        by_cases hIC : p.2.1 = C
        · rw [hIC, findA_insertA_self]
          rfl
        · rw [findA_insertA_ne _ p.2.1 C p.2.2 (fun hh => hIC hh.symm)]
          exact hsome
      | none =>
        have heq : performCompressionStep (bm, info) p = (bm, info) := by
          simp [performCompressionStep, hI, hc]
        rw [heq]
        exact pc_foldl_some C rest bm info hrest hsome
    | none =>
      have heq : performCompressionStep (bm, info) p = (bm, info) := by
        simp [performCompressionStep, hI]
      rw [heq]
      exact pc_foldl_some C rest bm info hrest hsome

/-! ## Claim theorems: normalization and compression -/

/-- C1 (amended): for every input whose entries for a `TypeId` `T` all carry
pointwise-equal `BindingData`, with at least one entry for `T` present, and
with `T` not mentioned by any compression candidate (as class or interface
type), a successful `normalizeBindings` yields exactly one entry for `T` in
the output vector, carrying that data; in general at most one entry per
`TypeId` survives into the final binding table. -/
theorem normalizeBindings_consistent_duplicates_dedup
    (bindings : List (TypeId × BindingData)) (fsad : FixedSizeAllocatorData)
    (cbv : List CompressedBinding) (mbv : List (TypeId × MultibindingData))
    (exposed : List TypeId) (T : TypeId) (d : BindingData) (r : NormalizeResult)
    (hmem : (T, d) ∈ bindings)
    (hall : ∀ d', (T, d') ∈ bindings → d' = d)
    (hcomp : ∀ cb ∈ cbv, cb.class_id ≠ T ∧ cb.interface_id ≠ T)
    (hok : normalizeBindings bindings fsad cbv mbv exposed = .ok r) :
    countKey r.result T = 1 ∧ findA r.result T = some d ∧
      ∀ T', countKey r.result T' ≤ 1 := by
  cases hmk : makeBindingDataMap bindings [] with
  | error e =>
    simp only [normalizeBindings, hmk] at hok
    exact absurd hok (by simp)
  | ok bm =>
    simp only [normalizeBindings, hmk, Except.ok.injEq] at hok
    subst hok
    have hbmT : findA bm T = some d :=
      makeBindingDataMap_find_of_mem bindings [] bm T d hmk hmem
    have hnd : NodupKeys bm :=
      makeBindingDataMap_nodup bindings [] bm hmk (by simp [NodupKeys, keysA])
    have hcm : ∀ p ∈ filteredCompressedBindingsMap bm cbv mbv exposed,
        p.1 ≠ T ∧ p.2.1 ≠ T := by
      intro p hp
      rcases mem_filteredCompressedBindingsMap bm cbv mbv exposed p hp with ⟨cb, hcb, rfl⟩
      exact ⟨(hcomp cb hcb).1, (hcomp cb hcb).2⟩
    have hfind : findA (performCompression
        (filteredCompressedBindingsMap bm cbv mbv exposed) bm).1 T = findA bm T :=
      pc_foldl_untouched T _ bm [] hcm
    have hnd' : NodupKeys (performCompression
        (filteredCompressedBindingsMap bm cbv mbv exposed) bm).1 :=
      pc_foldl_nodup _ bm [] hnd
    refine ⟨?_, ?_, ?_⟩
    · exact countKey_eq_one _ T d hnd' (hfind.trans hbmT)
    · exact hfind.trans hbmT
    · intro T'
      exact countKey_le_one_of_nodup _ T' hnd'

/-- Witness for C1: two consistent duplicate entries for type `1` and no
compression candidates; the output holds exactly one entry for type `1`. -/
theorem normalizeBindings_consistent_duplicates_dedup_witness :
    normalizeBindings [(1, ⟨false, [], 0, true⟩), (1, ⟨false, [], 0, true⟩)]
        ⟨[], []⟩ [] [] [] =
      .ok ⟨[(1, ⟨false, [], 0, true⟩)], ⟨[1, 1], []⟩, []⟩ ∧
    countKey [(1, (⟨false, [], 0, true⟩ : BindingData))] 1 = 1 := by
  refine ⟨by rfl, ?_⟩
  have h := normalizeBindings_consistent_duplicates_dedup
    [(1, ⟨false, [], 0, true⟩), (1, ⟨false, [], 0, true⟩)] ⟨[], []⟩ [] [] []
    1 ⟨false, [], 0, true⟩ ⟨[(1, ⟨false, [], 0, true⟩)], ⟨[1, 1], []⟩, []⟩
    (by decide)
    (by
      intro d' hd'
      simp only [List.mem_cons, List.not_mem_nil, or_false, Prod.mk.injEq] at hd'
      rcases hd' with ⟨_, h⟩ | ⟨_, h⟩ <;> exact h)
    (by intro cb hcb; simp at hcb)
    (by rfl)
  exact h.1

/-- C1 counterexample: the claim as stated fails when the duplicated type is
the class type of an applied binding compression — its entry is then removed
from the output entirely (zero entries, not one). -/
theorem normalizeBindings_dedup_entry_removed_by_compression :
    (normalizeBindings
        [(1, ⟨false, [], 10, true⟩), (1, ⟨false, [], 10, true⟩),
         (2, ⟨false, [1], 11, false⟩)]
        ⟨[], []⟩ [⟨1, 2, ⟨false, [], 12, true⟩⟩] [] []).map
      (fun r => countKey r.result 1) = .ok 0 := by rfl

/-- C2: if two entries share a `TypeId` `T` but their `BindingData` compare
unequal (and no other type has inconsistent duplicates, so the diagnostic
names `T` itself), `normalizeBindings` terminates fatally with the
multiple-bindings diagnostic naming `T` and never returns a table. -/
theorem normalizeBindings_inconsistent_duplicate_fatal
    (bindings : List (TypeId × BindingData)) (fsad : FixedSizeAllocatorData)
    (cbv : List CompressedBinding) (mbv : List (TypeId × MultibindingData))
    (exposed : List TypeId) (T : TypeId) (d1 d2 : BindingData)
    (h1 : (T, d1) ∈ bindings) (h2 : (T, d2) ∈ bindings) (hne : d1 ≠ d2)
    (hother : ∀ T' d' d'', T' ≠ T → (T', d') ∈ bindings → (T', d'') ∈ bindings →
      d' = d'') :
    normalizeBindings bindings fsad cbv mbv exposed = .error (.multipleBindings T) := by
  have herr : makeBindingDataMap bindings [] = .error (.multipleBindings T) := by
    refine makeBindingDataMap_error T bindings [] ⟨d1, d2, hne, Or.inl h1, h2⟩ ?_
    intro T' d' d'' hT hs1 hs2
    rcases hs1 with hs1 | hs1
    · rcases hs2 with hs2 | hs2
      · exact hother T' d' d'' hT hs1 hs2
      · simp [findA] at hs2
    · simp [findA] at hs1
  simp only [normalizeBindings, herr]

/-- Witness for C2: type `1` bound twice with different factories; the run
ends in the fatal diagnostic naming type `1`. -/
theorem normalizeBindings_inconsistent_duplicate_fatal_witness :
    normalizeBindings [(1, ⟨false, [], 0, true⟩), (1, ⟨false, [], 1, true⟩)]
        ⟨[], []⟩ [] [] [] = .error (.multipleBindings 1) :=
  normalizeBindings_inconsistent_duplicate_fatal
    [(1, ⟨false, [], 0, true⟩), (1, ⟨false, [], 1, true⟩)] ⟨[], []⟩ [] [] []
    1 ⟨false, [], 0, true⟩ ⟨false, [], 1, true⟩
    (by decide) (by decide) (by decide)
    (by
      intro T' d' d'' hT hm1 hm2
      simp only [List.mem_cons, List.not_mem_nil, or_false, Prod.mk.injEq] at hm1
      rcases hm1 with ⟨h, _⟩ | ⟨h, _⟩ <;> exact absurd h hT)

/-- C3: a compression candidate `(C, I)` that is disqualified by any of the
three safety rules (C is a dependency of a multibinding, C is exposed, or
some bound type other than I depends on C) never has C's entry removed from
the binding table by `normalizeBindings`. -/
theorem normalizeBindings_compression_safety_rules
    (bindings : List (TypeId × BindingData)) (fsad : FixedSizeAllocatorData)
    (cbv : List CompressedBinding) (mbv : List (TypeId × MultibindingData))
    (exposed : List TypeId) (C I : TypeId) (dId dC : BindingData)
    (r : NormalizeResult)
    (hok : normalizeBindings bindings fsad cbv mbv exposed = .ok r)
    (hC : (C, dC) ∈ bindings)
    (hcand : findA (makeCompressedBindingsMap cbv) C = some (I, dId))
    (hdisq : (∃ p ∈ mbv, ∃ ds, p.2.deps = some ds ∧ C ∈ ds)
           ∨ C ∈ exposed
           ∨ (∃ X dX, (X, dX) ∈ bindings ∧ X ≠ I ∧ dX.isCreated = false ∧
               C ∈ dX.getDeps)) :
    (findA r.result C).isSome = true := by
  cases hmk : makeBindingDataMap bindings [] with
  | error e =>
    simp only [normalizeBindings, hmk] at hok
    exact absurd hok (by simp)
  | ok bm =>
    simp only [normalizeBindings, hmk, Except.ok.injEq] at hok
    subst hok
    have hbmC : findA bm C = some dC :=
      makeBindingDataMap_find_of_mem bindings [] bm C dC hmk hC
    have hcm3 : findA (filteredCompressedBindingsMap bm cbv mbv exposed) C = none := by
      unfold filteredCompressedBindingsMap
      rcases hdisq with ⟨p, hp, ds, hds, hCds⟩ | hexp | ⟨X, dX, hX, hXI, hXcr, hXdep⟩
      · have h1 : findA (eraseMultibindingDeps (makeCompressedBindingsMap cbv) mbv)
            C = none :=
          eraseMultibindingDeps_none C _ mbv p.1 p.2 ds
            (by simpa using hp) hds hCds
        have h2 : findA (removeExposedTypes
            (eraseMultibindingDeps (makeCompressedBindingsMap cbv) mbv) exposed)
            C = none := by
          rcases removeExposedTypes_findA_invar C _ exposed with h | h
          · exact h
          · exact h.trans h1
        rcases filterDeps_findA_invar C _ bm with h | h
        · exact h
        · exact h.trans h2
      · have h2 : findA (removeExposedTypes
            (eraseMultibindingDeps (makeCompressedBindingsMap cbv) mbv) exposed)
            C = none := removeExposedTypes_none C _ exposed hexp
        rcases filterDeps_findA_invar C _ bm with h | h
        · exact h
        · exact h.trans h2
      · have hbmX : findA bm X = some dX :=
          makeBindingDataMap_find_of_mem bindings [] bm X dX hmk hX
        refine filterDeps_none C _ bm X dX (findA_some_mem bm X dX hbmX) hXcr hXdep ?_
        intro v hv
        have hv0 : findA (makeCompressedBindingsMap cbv) C = some v := by
          rcases eraseMultibindingDeps_findA_invar C (makeCompressedBindingsMap cbv)
              mbv with hh | hh
          · rcases removeExposedTypes_findA_invar C
                (eraseMultibindingDeps (makeCompressedBindingsMap cbv) mbv)
                exposed with hh2 | hh2
            · exact absurd (hh2.symm.trans hv) (by simp)
            · exact absurd ((hh2.trans hh).symm.trans hv) (by simp)
          · rcases removeExposedTypes_findA_invar C
                (eraseMultibindingDeps (makeCompressedBindingsMap cbv) mbv)
                exposed with hh2 | hh2
            · exact absurd (hh2.symm.trans hv) (by simp)
            · rw [← hh, ← hh2]
              exact hv
        rw [hcand] at hv0
        injection hv0 with hv0
        rw [← hv0]
        exact fun hh => hXI hh.symm
    have hkeys : ∀ p ∈ filteredCompressedBindingsMap bm cbv mbv exposed, p.1 ≠ C := by
      intro p hp hpc
      have := findA_none_not_mem _ C hcm3 p.2
      rw [← hpc] at this
      exact this (by simpa using hp)
    exact pc_foldl_some C _ bm [] hkeys (by rw [hbmC]; rfl)

/-- Witness for C3: candidate `(1, 2)` with class type `1` in the exposed
list; type `1` survives normalization. -/
theorem normalizeBindings_compression_safety_rules_witness :
    normalizeBindings [(1, ⟨false, [], 0, true⟩), (2, ⟨false, [1], 1, false⟩)]
        ⟨[], []⟩ [⟨1, 2, ⟨false, [], 2, true⟩⟩] [] [1] =
      .ok ⟨[(1, ⟨false, [], 0, true⟩), (2, ⟨false, [1], 1, false⟩)],
        ⟨[1], [2]⟩, []⟩ ∧
    (findA [(1, (⟨false, [], 0, true⟩ : BindingData)),
            (2, ⟨false, [1], 1, false⟩)] 1).isSome = true := by
  refine ⟨by rfl, ?_⟩
  have h := normalizeBindings_compression_safety_rules
    [(1, ⟨false, [], 0, true⟩), (2, ⟨false, [1], 1, false⟩)] ⟨[], []⟩
    [⟨1, 2, ⟨false, [], 2, true⟩⟩] [] [1] 1 2 ⟨false, [], 2, true⟩
    ⟨false, [], 0, true⟩
    ⟨[(1, ⟨false, [], 0, true⟩), (2, ⟨false, [1], 1, false⟩)], ⟨[1], [2]⟩, []⟩
    (by rfl) (by decide) (by decide)
    (Or.inr (Or.inl (by decide)))
  exact h

/-! ## Claim theorem: allocator accounting -/

theorem countId_snoc_self (l : List TypeId) (a : TypeId) :
    countId (l ++ [a]) a = countId l a + 1 := by
  rw [countId_append]
  simp [countId]

theorem countId_snoc_ne (l : List TypeId) (a b : TypeId) (h : b ≠ a) :
    countId (l ++ [b]) a = countId l a := by
  rw [countId_append]
  simp [countId, h]

theorem processAllocator_count (T : TypeId) :
    ∀ (l : List (TypeId × BindingData)) (fsad : FixedSizeAllocatorData),
      countId (processAllocator fsad l).types_to_allocate T =
        countId fsad.types_to_allocate T +
          (l.filter (fun p => p.1 = T ∧ p.2.needsAllocation = true)).length ∧
      countId (processAllocator fsad l).externally_allocated_types T =
        countId fsad.externally_allocated_types T +
          (l.filter (fun p => p.1 = T ∧ p.2.needsAllocation = false)).length
  | [], fsad => by simp [processAllocator]
  | p :: rest, fsad => by
    have ih := fun fs => processAllocator_count T rest fs
    unfold processAllocator at ih ⊢
    rw [List.foldl_cons]
    cases hna : p.2.needsAllocation with
    | true =>
      rw [if_pos rfl]
      obtain ⟨iha, ihe⟩ := ih (fsad.addType p.1)
      rw [iha, ihe]
      unfold FixedSizeAllocatorData.addType
      simp only [List.filter_cons, hna]
      by_cases hT : p.1 = T
      · subst hT
        rw [countId_snoc_self]
        simp
        omega
      · rw [countId_snoc_ne _ _ _ hT]
        simp [hT]
    | false =>
      rw [if_neg (by simp)]
      obtain ⟨iha, ihe⟩ := ih (fsad.addExternallyAllocatedType p.1)
      rw [iha, ihe]
      unfold FixedSizeAllocatorData.addExternallyAllocatedType
      simp only [List.filter_cons, hna]
      by_cases hT : p.1 = T
      · subst hT
        rw [countId_snoc_self]
        simp
        omega
      · rw [countId_snoc_ne _ _ _ hT]
        simp [hT]

/-- C8: for every type `T`, the allocator accumulator a successful
`normalizeBindings` run returns records one "needs allocation" count per raw
(pre-deduplication) occurrence of `T` classified as needing allocation, and
one externally-allocated count per raw occurrence not needing allocation, on
top of whatever the in/out accumulator already held. -/
theorem normalizeBindings_allocator_counts_raw
    (bindings : List (TypeId × BindingData)) (fsad : FixedSizeAllocatorData)
    (cbv : List CompressedBinding) (mbv : List (TypeId × MultibindingData))
    (exposed : List TypeId) (T : TypeId) (r : NormalizeResult)
    (hok : normalizeBindings bindings fsad cbv mbv exposed = .ok r) :
    countId r.allocator.types_to_allocate T =
      countId fsad.types_to_allocate T +
        (bindings.filter (fun p => p.1 = T ∧ p.2.needsAllocation = true)).length ∧
    countId r.allocator.externally_allocated_types T =
      countId fsad.externally_allocated_types T +
        (bindings.filter (fun p => p.1 = T ∧ p.2.needsAllocation = false)).length := by
  cases hmk : makeBindingDataMap bindings [] with
  | error e =>
    simp only [normalizeBindings, hmk] at hok
    exact absurd hok (by simp)
  | ok bm =>
    simp only [normalizeBindings, hmk, Except.ok.injEq] at hok
    subst hok
    exact processAllocator_count T bindings fsad

/-- Witness for C8: type `1` occurs three times raw (twice needing allocation,
once already constructed) but only once post-deduplication would be wrong —
the accumulator records both allocation-needing raw occurrences. -/
theorem normalizeBindings_allocator_counts_raw_witness :
    normalizeBindings [(1, ⟨false, [], 0, true⟩), (1, ⟨false, [], 0, true⟩),
        (2, ⟨false, [], 1, false⟩)] ⟨[], []⟩ [] [] [] =
      .ok ⟨[(1, ⟨false, [], 0, true⟩), (2, ⟨false, [], 1, false⟩)],
        ⟨[1, 1], [2]⟩, []⟩ ∧
    countId [1, 1] 1 = countId [] 1 +
      ([(1, (⟨false, [], 0, true⟩ : BindingData)),
        (1, ⟨false, [], 0, true⟩), (2, ⟨false, [], 1, false⟩)].filter
          (fun p => p.1 = 1 ∧ p.2.needsAllocation = true)).length := by
  refine ⟨by rfl, ?_⟩
  have h := normalizeBindings_allocator_counts_raw
    [(1, ⟨false, [], 0, true⟩), (1, ⟨false, [], 0, true⟩), (2, ⟨false, [], 1, false⟩)]
    ⟨[], []⟩ [] [] [] 1
    ⟨[(1, ⟨false, [], 0, true⟩), (2, ⟨false, [], 1, false⟩)], ⟨[1, 1], [2]⟩, []⟩
    (by rfl)
  exact h.1

/-! ## Claim theorem: compression application -/

theorem pc_foldl_none_preserved (C : TypeId) :
    ∀ (cm : List (TypeId × (TypeId × BindingData))) (bm : List (TypeId × BindingData))
      (info : List (TypeId × BindingCompressionInfo)),
      (∀ p ∈ cm, p.1 ≠ C) → findA bm C = none →
      findA (cm.foldl performCompressionStep (bm, info)).1 C = none
  | [], bm, info, _, hnone => by simpa using hnone
  | p :: rest, bm, info, h, hnone => by
    rw [List.foldl_cons]
    have hp := h p (List.mem_cons_self _ _)
    have hrest : ∀ q ∈ rest, q.1 ≠ C := fun q hq => h q (List.mem_cons_of_mem _ hq)
    by_cases hIC : p.2.1 = C
    · have heq : performCompressionStep (bm, info) p = (bm, info) := by
        cases hc : findA bm p.1 <;> simp [performCompressionStep, hIC, hnone, hc]
      rw [heq]
      exact pc_foldl_none_preserved C rest bm info hrest hnone
    · cases hI : findA bm p.2.1 with
      | some i_bd =>
        cases hc : findA bm p.1 with
        | some c_bd =>
          have heq : performCompressionStep (bm, info) p =
              (eraseA (insertA bm p.2.1 p.2.2) p.1,
               insertA info p.1 ⟨p.2.1, i_bd, c_bd⟩) := by
            simp [performCompressionStep, hI, hc]
          rw [heq]
          refine pc_foldl_none_preserved C rest _ _ hrest ?_
          rw [findA_eraseA_ne _ p.1 C (Ne.symm hp)]
          rw [findA_insertA_ne _ p.2.1 C p.2.2 (fun hh => hIC hh.symm)]
          exact hnone
        | none =>
          have heq : performCompressionStep (bm, info) p = (bm, info) := by
            simp [performCompressionStep, hI, hc]
          rw [heq]
          exact pc_foldl_none_preserved C rest bm info hrest hnone
      | none =>
        have heq : performCompressionStep (bm, info) p = (bm, info) := by
          simp [performCompressionStep, hI]
        rw [heq]
        exact pc_foldl_none_preserved C rest bm info hrest hnone

theorem nodupKeys_split {β : Type} (s t : List (TypeId × β)) (a : TypeId) (b : β)
    (h : NodupKeys (s ++ (a, b) :: t)) :
    (∀ p ∈ s, p.1 ≠ a) ∧ ∀ p ∈ t, p.1 ≠ a := by
  simp only [NodupKeys, keysA, List.map_append, List.map_cons] at h
  rw [List.nodup_append] at h
  obtain ⟨h1, h2, h3⟩ := h
  constructor
  · intro p hp hpa
    exact h3 (hpa ▸ List.mem_map_of_mem Prod.fst hp) (List.mem_cons_self _ _)
  · intro p hp hpa
    rw [List.nodup_cons] at h2
    exact h2.1 (hpa ▸ List.mem_map_of_mem Prod.fst hp)

/-- C4 (amended): a compression candidate `(C, I, dd)` that survives all three
safety rules, with `C ≠ I`, no surviving candidate having class type `I`
(candidate edges cannot chain), and no other surviving candidate sharing the
interface `I`: after `normalizeBindings`, `I`'s entry in the output carries
the candidate's stored binding data `dd` (which upstream is exactly C's
constructor binding data), and `C` is absent from the output table. -/
theorem normalizeBindings_compression_applied
    (bindings : List (TypeId × BindingData)) (fsad : FixedSizeAllocatorData)
    (cbv : List CompressedBinding) (mbv : List (TypeId × MultibindingData))
    (exposed : List TypeId) (C I : TypeId) (dd dC dI : BindingData)
    (bm : List (TypeId × BindingData)) (r : NormalizeResult)
    (hmk : makeBindingDataMap bindings [] = .ok bm)
    (hok : normalizeBindings bindings fsad cbv mbv exposed = .ok r)
    (hcand : findA (filteredCompressedBindingsMap bm cbv mbv exposed) C = some (I, dd))
    (hCI : C ≠ I)
    (hIclass : ∀ p ∈ filteredCompressedBindingsMap bm cbv mbv exposed, p.1 ≠ I)
    (huniq : ∀ p ∈ filteredCompressedBindingsMap bm cbv mbv exposed,
      p.2.1 = I → p.1 = C)
    (hCb : findA bm C = some dC) (hIb : findA bm I = some dI) :
    findA r.result I = some dd ∧ findA r.result C = none := by
  simp only [normalizeBindings, hmk, Except.ok.injEq] at hok
  subst hok
  have hnd3 : NodupKeys (filteredCompressedBindingsMap bm cbv mbv exposed) :=
    nodupKeys_filteredCompressedBindingsMap bm cbv mbv exposed
  have hmem3 : (C, (I, dd)) ∈ filteredCompressedBindingsMap bm cbv mbv exposed :=
    findA_some_mem _ C (I, dd) hcand
  rcases List.append_of_mem hmem3 with ⟨s, t, hsplit⟩
  have hsub : ∀ p, p ∈ s ∨ p ∈ t →
      p ∈ filteredCompressedBindingsMap bm cbv mbv exposed := by
    intro p hp
    rw [hsplit]
    rcases hp with hp | hp
    · exact List.mem_append.mpr (Or.inl hp)
    · exact List.mem_append.mpr (Or.inr (List.mem_cons_of_mem _ hp))
  have hkeysC : (∀ p ∈ s, p.1 ≠ C) ∧ ∀ p ∈ t, p.1 ≠ C :=
    nodupKeys_split s t C (I, dd) (hsplit ▸ hnd3)
  have hsI : ∀ p ∈ s, p.1 ≠ I ∧ p.2.1 ≠ I := by
    intro p hp
    refine ⟨hIclass p (hsub p (Or.inl hp)), ?_⟩
    intro hif
    exact hkeysC.1 p hp (huniq p (hsub p (Or.inl hp)) hif)
  have htI : ∀ p ∈ t, p.1 ≠ I ∧ p.2.1 ≠ I := by
    intro p hp
    refine ⟨hIclass p (hsub p (Or.inr hp)), ?_⟩
    intro hif
    exact hkeysC.2 p hp (huniq p (hsub p (Or.inr hp)) hif)
  unfold performCompression
  rw [hsplit, List.foldl_append, List.foldl_cons]
  set st1 := s.foldl performCompressionStep (bm, []) with hst1
  have hI1 : findA st1.1 I = some dI := by
    rw [hst1]
    have := pc_foldl_untouched I s bm [] hsI
    rw [this]
    exact hIb
  have hC1 : (findA st1.1 C).isSome = true := by
    rw [hst1]
    exact pc_foldl_some C s bm [] hkeysC.1 (by rw [hCb]; rfl)
  rcases Option.isSome_iff_exists.mp hC1 with ⟨dC', hC1'⟩
  have hstep : performCompressionStep st1 (C, (I, dd)) =
      (eraseA (insertA st1.1 I dd) C, insertA st1.2 C ⟨I, dI, dC'⟩) := by
    simp [performCompressionStep, hI1, hC1']
  have hstep' : performCompressionStep (st1.1, st1.2) (C, (I, dd)) =
      (eraseA (insertA st1.1 I dd) C, insertA st1.2 C ⟨I, dI, dC'⟩) := hstep
  rw [hstep]
  have hI2 : findA (eraseA (insertA st1.1 I dd) C) I = some dd := by
    rw [findA_eraseA_ne _ C I (Ne.symm hCI)]
    exact findA_insertA_self st1.1 I dd
  have hC2 : findA (eraseA (insertA st1.1 I dd) C) C = none :=
    findA_eraseA_self _ C
  constructor
  · have := pc_foldl_untouched I t (eraseA (insertA st1.1 I dd) C)
      (insertA st1.2 C ⟨I, dI, dC'⟩) htI
    rw [this]
    exact hI2
  · exact pc_foldl_none_preserved C t _ _ hkeysC.2 hC2

/-- Witness for C4: the candidate `(1, 2, dd)` survives all rules; after
normalization type `2` carries `dd` and type `1` is gone. -/
theorem normalizeBindings_compression_applied_witness :
    normalizeBindings [(1, ⟨false, [], 0, true⟩), (2, ⟨false, [1], 1, false⟩)]
        ⟨[], []⟩ [⟨1, 2, ⟨false, [], 2, true⟩⟩] [] [] =
      .ok ⟨[(2, ⟨false, [], 2, true⟩)], ⟨[1], [2]⟩,
        [(1, ⟨2, ⟨false, [1], 1, false⟩, ⟨false, [], 0, true⟩⟩)]⟩ ∧
    findA [(2, (⟨false, [], 2, true⟩ : BindingData))] 2 =
      some ⟨false, [], 2, true⟩ ∧
    findA [(2, (⟨false, [], 2, true⟩ : BindingData))] 1 = none := by
  refine ⟨by rfl, ?_, ?_⟩
  · exact (normalizeBindings_compression_applied
      [(1, ⟨false, [], 0, true⟩), (2, ⟨false, [1], 1, false⟩)] ⟨[], []⟩
      [⟨1, 2, ⟨false, [], 2, true⟩⟩] [] [] 1 2 ⟨false, [], 2, true⟩
      ⟨false, [], 0, true⟩ ⟨false, [1], 1, false⟩
      [(1, ⟨false, [], 0, true⟩), (2, ⟨false, [1], 1, false⟩)]
      ⟨[(2, ⟨false, [], 2, true⟩)], ⟨[1], [2]⟩,
        [(1, ⟨2, ⟨false, [1], 1, false⟩, ⟨false, [], 0, true⟩⟩)]⟩
      (by rfl) (by rfl) (by decide) (by decide) (by decide) (by decide)
      (by decide) (by decide)).1
  · exact (normalizeBindings_compression_applied
      [(1, ⟨false, [], 0, true⟩), (2, ⟨false, [1], 1, false⟩)] ⟨[], []⟩
      [⟨1, 2, ⟨false, [], 2, true⟩⟩] [] [] 1 2 ⟨false, [], 2, true⟩
      ⟨false, [], 0, true⟩ ⟨false, [1], 1, false⟩
      [(1, ⟨false, [], 0, true⟩), (2, ⟨false, [1], 1, false⟩)]
      ⟨[(2, ⟨false, [], 2, true⟩)], ⟨[1], [2]⟩,
        [(1, ⟨2, ⟨false, [1], 1, false⟩, ⟨false, [], 0, true⟩⟩)]⟩
      (by rfl) (by rfl) (by decide) (by decide) (by decide) (by decide)
      (by decide) (by decide)).2

/-- C4 counterexample: the claim as stated fails because the interface entry
is overwritten with the candidate's stored binding data, not with the class
type's binding-map entry; here the class type `1` was bound with factory `0`
but the output entry for the interface `2` carries factory `2`. -/
theorem normalizeBindings_compression_interface_gets_candidate_data :
    (normalizeBindings [(1, ⟨false, [], 0, true⟩), (2, ⟨false, [1], 1, false⟩)]
        ⟨[], []⟩ [⟨1, 2, ⟨false, [], 2, true⟩⟩] [] []).map
      (fun r => findA r.result 2) = .ok (some ⟨false, [], 2, true⟩) ∧
    (⟨false, [], 2, true⟩ : BindingData) ≠ ⟨false, [], 0, true⟩ := by
  exact ⟨by rfl, by decide⟩

/-! ## Lemmas about `addMultibindings` -/

theorem insertSortedMB_perm (p : TypeId × MultibindingData) :
    ∀ l : List (TypeId × MultibindingData), (insertSortedMB p l).Perm (p :: l)
  | [] => by simp [insertSortedMB]
  | q :: rest => by
    unfold insertSortedMB
    by_cases h : q.1 ≤ p.1
    · rw [if_pos h]
      exact ((insertSortedMB_perm p rest).cons q).trans (List.Perm.swap p q rest)
    · rw [if_neg h]

theorem sortMB_perm (l : List (TypeId × MultibindingData)) : (sortMB l).Perm l := by
  induction l with
  | nil => simp [sortMB]
  | cons p rest ih =>
    unfold sortMB
    rw [List.foldr_cons]
    exact (insertSortedMB_perm p _).trans (ih.cons p)

theorem mem_insertSortedMB (p x : TypeId × MultibindingData)
    (l : List (TypeId × MultibindingData)) (h : x ∈ insertSortedMB p l) :
    x = p ∨ x ∈ l :=
  (List.mem_cons.mp ((insertSortedMB_perm p l).subset h))

theorem insertSortedMB_sorted (p : TypeId × MultibindingData) :
    ∀ l : List (TypeId × MultibindingData),
      l.Pairwise (fun a b => a.1 ≤ b.1) →
      (insertSortedMB p l).Pairwise (fun a b => a.1 ≤ b.1)
  | [], _ => by simp [insertSortedMB]
  | q :: rest, h => by
    rw [List.pairwise_cons] at h
    unfold insertSortedMB
    by_cases hq : q.1 ≤ p.1
    · rw [if_pos hq]
      rw [List.pairwise_cons]
      refine ⟨?_, insertSortedMB_sorted p rest h.2⟩
      intro x hx
      rcases mem_insertSortedMB p x rest hx with hx' | hx'
      · rw [hx']
        exact hq
      · exact h.1 x hx'
    · rw [if_neg hq]
      rw [List.pairwise_cons]
      refine ⟨?_, List.pairwise_cons.mpr h⟩
      intro x hx
      rcases List.mem_cons.mp hx with hx' | hx'
      · rw [hx']
        exact le_of_not_le hq
      · exact le_trans (le_of_not_le hq) (h.1 x hx')

theorem sortMB_sorted (l : List (TypeId × MultibindingData)) :
    (sortMB l).Pairwise (fun a b => a.1 ≤ b.1) := by
  induction l with
  | nil => simp [sortMB]
  | cons p rest ih =>
    unfold sortMB
    rw [List.foldr_cons]
    exact insertSortedMB_sorted p _ ih

theorem takeGroup_app (t : TypeId) :
    ∀ (l1 l2 : List (TypeId × MultibindingData)),
      (∀ p ∈ l1, p.1 = t) → (∀ q ∈ l2.head?, q.1 ≠ t) →
      takeGroup t (l1 ++ l2) = (l1.map Prod.snd, l2)
  | [], l2, _, h2 => by
    cases l2 with
    | nil => simp [takeGroup]
    | cons q l2' =>
      have hq : q.1 ≠ t := h2 q (by simp)
      obtain ⟨tq, dq⟩ := q
      simp only [List.nil_append, takeGroup]
      rw [if_neg (by simpa using hq)]
      simp
  | (tp, dp) :: l1, l2, h1, h2 => by
    have htp : tp = t := h1 (tp, dp) (List.mem_cons_self _ _)
    simp only [List.cons_append, takeGroup, List.append_eq]
    rw [if_pos htp]
    rw [takeGroup_app t l1 l2 (fun p hp => h1 p (List.mem_cons_of_mem _ hp)) h2]
    simp

theorem takeGroup_split (t : TypeId) :
    ∀ l : List (TypeId × MultibindingData),
      ∃ l1 l2, l = l1 ++ l2 ∧ (∀ p ∈ l1, p.1 = t) ∧
        takeGroup t l = (l1.map Prod.snd, l2) ∧ ∀ q ∈ l2.head?, q.1 ≠ t
  | [] => ⟨[], [], by simp [takeGroup]⟩
  | (tp, dp) :: rest => by
    by_cases htp : tp = t
    · rcases takeGroup_split t rest with ⟨l1, l2, hsplit, hall, htg, hhead⟩
      refine ⟨(tp, dp) :: l1, l2, by simp [hsplit], ?_, ?_, hhead⟩
      · intro p hp
        rcases List.mem_cons.mp hp with hp' | hp'
        · rw [hp']
          exact htp
        · exact hall p hp'
      · simp only [takeGroup]
        rw [if_pos htp, htg]
        simp
    · refine ⟨[], (tp, dp) :: rest, by simp, by simp, ?_, ?_⟩
      · simp only [takeGroup]
        rw [if_neg htp]
        simp
      · intro q hq
        simp only [List.head?_cons, Option.mem_def, Option.some.injEq] at hq
        rw [← hq]
        exact htp

theorem no_t_after_group (t : TypeId) (d : MultibindingData)
    (l1 l2 : List (TypeId × MultibindingData))
    (hs : ((t, d) :: (l1 ++ l2)).Pairwise (fun a b => a.1 ≤ b.1))
    (hhead : ∀ q ∈ l2.head?, q.1 ≠ t) : ∀ p ∈ l2, p.1 ≠ t := by
  cases l2 with
  | nil => simp
  | cons q l2' =>
    intro p hp
    have hq : q.1 ≠ t := hhead q (by simp)
    rw [List.pairwise_cons] at hs
    have hge : t ≤ q.1 := hs.1 q (List.mem_append.mpr (Or.inr (List.mem_cons_self _ _)))
    have hlt : t < q.1 := lt_of_le_of_ne hge (Ne.symm hq)
    rcases List.mem_cons.mp hp with hp' | hp'
    · rw [hp']
      exact hq
    · have hsl : (q :: l2').Pairwise (fun a b => a.1 ≤ b.1) :=
        hs.2.sublist (List.sublist_append_right l1 (q :: l2'))
      have hle : q.1 ≤ p.1 := (List.pairwise_cons.mp hsl).1 p hp'
      intro hpt
      rw [hpt] at hle
      exact absurd hle (not_le.mpr hlt)

theorem addMultibindingsLoop_no_T (T : TypeId) :
    ∀ (l : List (TypeId × MultibindingData))
      (mb : List (TypeId × NormalizedMultibindingData)) (fsad : FixedSizeAllocatorData),
      (∀ p ∈ l, p.1 ≠ T) →
      findA (addMultibindingsLoop fsad mb l).1 T = findA mb T
  | [], mb, fsad, _ => by simp [addMultibindingsLoop]
  | (t, d) :: rest, mb, fsad, h => by
    rcases takeGroup_split t rest with ⟨l1, l2, hsplit, hall, htg, hhead⟩
    have hl2 : ∀ p ∈ l2, p.1 ≠ T := by
      intro p hp
      refine h p ?_
      rw [hsplit]
      exact List.mem_cons_of_mem _ (List.mem_append.mpr (Or.inr hp))
    have ht : t ≠ T := h (t, d) (List.mem_cons_self _ _)
    simp only [addMultibindingsLoop]
    rw [htg]
    rw [addMultibindingsLoop_no_T T l2 _ _ hl2]
    exact findA_insertA_ne mb t T _ (Ne.symm ht)
termination_by l => l.length
decreasing_by
  simp only [List.length_cons]
  have := congrArg List.length hsplit
  rw [List.length_append] at this
  omega

theorem addMultibindingsLoop_nodup :
    ∀ (l : List (TypeId × MultibindingData))
      (mb : List (TypeId × NormalizedMultibindingData)) (fsad : FixedSizeAllocatorData),
      NodupKeys mb → NodupKeys (addMultibindingsLoop fsad mb l).1
  | [], mb, fsad, h => by simpa [addMultibindingsLoop] using h
  | (t, d) :: rest, mb, fsad, h => by
    simp only [addMultibindingsLoop]
    exact addMultibindingsLoop_nodup _ _ _ (nodupKeys_insertA mb t _ h)
termination_by l => l.length
decreasing_by
  simp only [List.length_cons]
  exact Nat.lt_succ_of_le (takeGroup_rest_length _ _)

theorem addMultibindingsLoop_T (T : TypeId) :
    ∀ (l : List (TypeId × MultibindingData))
      (mb : List (TypeId × NormalizedMultibindingData)) (fsad : FixedSizeAllocatorData)
      (f0 : TypeId × MultibindingData) (ftl : List (TypeId × MultibindingData)),
      l.Pairwise (fun a b => a.1 ≤ b.1) →
      l.filter (fun p => p.1 = T) = f0 :: ftl →
      findA (addMultibindingsLoop fsad mb l).1 T =
        some ⟨((findA mb T).getD ⟨[], 0⟩).elems ++
          (f0 :: ftl).map (fun p => Elem.mk p.2), f0.2.get_multibindings_vector⟩
  | [], mb, fsad, f0, ftl, _, hf => by simp at hf
  | (t, d) :: rest, mb, fsad, f0, ftl, hs, hf => by
    rcases takeGroup_split t rest with ⟨l1, l2, hsplit, hall, htg, hhead⟩
    have hl2t : ∀ p ∈ l2, p.1 ≠ t := no_t_after_group t d l1 l2 (hsplit ▸ hs) hhead
    by_cases htT : t = T
    · subst htT
      have hfl1 : l1.filter (fun p => p.1 = t) = l1 :=
        List.filter_eq_self.mpr (fun p hp => by simp [hall p hp])
      have hfl2 : l2.filter (fun p => p.1 = t) = [] :=
        List.filter_eq_nil.mpr (fun p hp => by simp [hl2t p hp])
      have hfilter : ((t, d) :: rest).filter (fun p => p.1 = t) = (t, d) :: l1 := by
        rw [hsplit]
        simp only [List.filter_cons, List.filter_append, hfl1, hfl2]
        simp
      have hinj : f0 :: ftl = (t, d) :: l1 := hf.symm.trans hfilter
      injection hinj with hf0 hftl
      subst hf0
      subst hftl
      simp only [addMultibindingsLoop]
      rw [htg]
      rw [addMultibindingsLoop_no_T t l2 _ _ hl2t]
      rw [findA_insertA_self]
      simp [List.map_map, Function.comp]
    · have hfl1 : l1.filter (fun p => p.1 = T) = [] :=
        List.filter_eq_nil.mpr (fun p hp => by simp [hall p hp, htT])
      have hfilter : ((t, d) :: rest).filter (fun p => p.1 = T) =
          l2.filter (fun p => p.1 = T) := by
        rw [hsplit]
        simp only [List.filter_cons, List.filter_append, hfl1]
        simp [htT]
      have hf2 : l2.filter (fun p => p.1 = T) = f0 :: ftl := hfilter.symm.trans hf
      have hs2 : l2.Pairwise (fun a b => a.1 ≤ b.1) := by
        rw [List.pairwise_cons] at hs
        rw [hsplit] at hs
        exact hs.2.sublist (List.sublist_append_right l1 l2)
      simp only [addMultibindingsLoop]
      rw [htg]
      rw [addMultibindingsLoop_T T l2 _ _ f0 ftl hs2 hf2]
      rw [findA_insertA_ne mb t T _ (Ne.symm htT)]
termination_by l => l.length
decreasing_by
  all_goals
    simp only [List.length_cons]
    have := congrArg List.length hsplit
    rw [List.length_append] at this
    omega

/-! ## Claim theorems: multibinding merging -/

theorem sortMB_filter_length (mbv : List (TypeId × MultibindingData)) (T : TypeId) :
    ((sortMB mbv).filter (fun p => p.1 = T)).length = countKey mbv T := by
  rw [countKey_eq_filter_length]
  exact ((sortMB_perm mbv).filter _).length_eq

/-- C7: for a type `T` with zero providers in the raw vector (and no
pre-existing entry), `addMultibindings` produces no entry for `T`; for `N ≥ 1`
providers sharing the accessor `g`, it produces exactly one entry for `T`,
holding one element per provider (in sorted-vector order) and the shared
accessor. -/
theorem addMultibindings_group_merge
    (mbv : List (TypeId × MultibindingData))
    (mb0 : List (TypeId × NormalizedMultibindingData))
    (fsad : FixedSizeAllocatorData) (T : TypeId) (g : Nat)
    (hg : ∀ md, (T, md) ∈ mbv → md.get_multibindings_vector = g)
    (hnone : findA mb0 T = none) (hnodup : NodupKeys mb0) :
    (countKey mbv T = 0 → findA (addMultibindings mb0 fsad mbv).1 T = none) ∧
    (1 ≤ countKey mbv T →
      findA (addMultibindings mb0 fsad mbv).1 T = some ⟨newElemsFor T mbv, g⟩ ∧
      countKey (addMultibindings mb0 fsad mbv).1 T = 1 ∧
      (newElemsFor T mbv).length = countKey mbv T) := by
  constructor
  · intro h0
    have hfil : (sortMB mbv).filter (fun p => p.1 = T) = [] := by
      rw [← List.length_eq_zero]
      rw [sortMB_filter_length]
      exact h0
    have hnoT : ∀ p ∈ sortMB mbv, p.1 ≠ T := by
      intro p hp
      have := List.filter_eq_nil.mp hfil p hp
      simpa using this
    unfold addMultibindings
    rw [addMultibindingsLoop_no_T T (sortMB mbv) mb0 fsad hnoT]
    exact hnone
  · intro h1
    have hlen : 1 ≤ ((sortMB mbv).filter (fun p => p.1 = T)).length := by
      rw [sortMB_filter_length]
      exact h1
    cases hfil : (sortMB mbv).filter (fun p => p.1 = T) with
    | nil =>
      rw [hfil] at hlen
      simp at hlen
    | cons f0 ftl =>
      have hmain := addMultibindingsLoop_T T (sortMB mbv) mb0 fsad f0 ftl
        (sortMB_sorted mbv) hfil
      have hf0T : f0.1 = T := by
        have : f0 ∈ (sortMB mbv).filter (fun p => p.1 = T) := by
          rw [hfil]
          exact List.mem_cons_self _ _
        simpa using (List.mem_filter.mp this).2
      have hf0mem : (T, f0.2) ∈ mbv := by
        have : f0 ∈ (sortMB mbv).filter (fun p => p.1 = T) := by
          rw [hfil]
          exact List.mem_cons_self _ _
        have hmem := (sortMB_perm mbv).subset (List.mem_filter.mp this).1
        rw [← hf0T]
        simpa using hmem
      have hacc : f0.2.get_multibindings_vector = g := hg f0.2 hf0mem
      have hnew : newElemsFor T mbv = (f0 :: ftl).map (fun p => Elem.mk p.2) := by
        unfold newElemsFor
        rw [hfil]
      have hfind : findA (addMultibindings mb0 fsad mbv).1 T =
          some ⟨newElemsFor T mbv, g⟩ := by
        unfold addMultibindings
        rw [hmain, hnone, hacc, hnew]
        simp
      refine ⟨hfind, ?_, ?_⟩
      · exact countKey_eq_one _ T _
          (addMultibindingsLoop_nodup (sortMB mbv) mb0 fsad hnodup) hfind
      · rw [hnew, List.length_map, ← hfil]
        exact sortMB_filter_length mbv T

/-- C10: `addMultibindings` only appends to the caller-supplied in/out map:
an entry for a type absent from the raw vector is left unchanged; for a type
with pre-existing entry `e0` and at least one provider in the vector, the
pre-existing ordered elements are preserved with the new providers' elements
appended after them, while the accessor is overwritten with the (shared)
accessor `g` from the input vector. -/
theorem addMultibindings_frame
    (mbv : List (TypeId × MultibindingData))
    (mb0 : List (TypeId × NormalizedMultibindingData))
    (fsad : FixedSizeAllocatorData) (T : TypeId) (g : Nat)
    (e0 : NormalizedMultibindingData)
    (hg : ∀ md, (T, md) ∈ mbv → md.get_multibindings_vector = g) :
    (countKey mbv T = 0 → findA (addMultibindings mb0 fsad mbv).1 T = findA mb0 T) ∧
    (findA mb0 T = some e0 → 1 ≤ countKey mbv T →
      findA (addMultibindings mb0 fsad mbv).1 T =
        some ⟨e0.elems ++ newElemsFor T mbv, g⟩) := by
  constructor
  · intro h0
    have hfil : (sortMB mbv).filter (fun p => p.1 = T) = [] := by
      rw [← List.length_eq_zero]
      rw [sortMB_filter_length]
      exact h0
    have hnoT : ∀ p ∈ sortMB mbv, p.1 ≠ T := by
      intro p hp
      have := List.filter_eq_nil.mp hfil p hp
      simpa using this
    unfold addMultibindings
    exact addMultibindingsLoop_no_T T (sortMB mbv) mb0 fsad hnoT
  · intro he0 h1
    have hlen : 1 ≤ ((sortMB mbv).filter (fun p => p.1 = T)).length := by
      rw [sortMB_filter_length]
      exact h1
    cases hfil : (sortMB mbv).filter (fun p => p.1 = T) with
    | nil =>
      rw [hfil] at hlen
      simp at hlen
    | cons f0 ftl =>
      have hmain := addMultibindingsLoop_T T (sortMB mbv) mb0 fsad f0 ftl
        (sortMB_sorted mbv) hfil
      have hf0T : f0.1 = T := by
        have : f0 ∈ (sortMB mbv).filter (fun p => p.1 = T) := by
          rw [hfil]
          exact List.mem_cons_self _ _
        simpa using (List.mem_filter.mp this).2
      have hf0mem : (T, f0.2) ∈ mbv := by
        have : f0 ∈ (sortMB mbv).filter (fun p => p.1 = T) := by
          rw [hfil]
          exact List.mem_cons_self _ _
        have hmem := (sortMB_perm mbv).subset (List.mem_filter.mp this).1
        rw [← hf0T]
        simpa using hmem
      have hacc : f0.2.get_multibindings_vector = g := hg f0.2 hf0mem
      have hnew : newElemsFor T mbv = (f0 :: ftl).map (fun p => Elem.mk p.2) := by
        unfold newElemsFor
        rw [hfil]
      unfold addMultibindings
      rw [hmain, he0, hacc, hnew]
      simp

/-- Witness for C7: two providers for type `1` sharing accessor `7`, starting
from an empty map: one entry with two elements and accessor `7`. -/
theorem addMultibindings_group_merge_witness :
    findA (addMultibindings [] ⟨[], []⟩
        [(1, ⟨1, none, true, 7⟩), (1, ⟨2, none, false, 7⟩)]).1 1 =
      some ⟨newElemsFor 1 [(1, ⟨1, none, true, 7⟩), (1, ⟨2, none, false, 7⟩)], 7⟩ ∧
    countKey (addMultibindings [] ⟨[], []⟩
        [(1, ⟨1, none, true, 7⟩), (1, ⟨2, none, false, 7⟩)]).1 1 = 1 ∧
    (newElemsFor 1 [(1, ⟨1, none, true, 7⟩), (1, ⟨2, none, false, 7⟩)]).length =
      countKey [(1, (⟨1, none, true, 7⟩ : MultibindingData)),
        (1, (⟨2, none, false, 7⟩ : MultibindingData))] 1 :=
  (addMultibindings_group_merge
    [(1, (⟨1, none, true, 7⟩ : MultibindingData)),
     (1, (⟨2, none, false, 7⟩ : MultibindingData))] [] ⟨[], []⟩ 1 7
    (by
      intro md h
      simp only [List.mem_cons, List.not_mem_nil, or_false, Prod.mk.injEq] at h
      rcases h with ⟨_, h⟩ | ⟨_, h⟩ <;> rw [h])
    (by rfl)
    (by simp [NodupKeys, keysA])).2 (by decide)

/-- Witness for C10: a pre-existing entry for type `1` (one element, accessor
`9`) and one new provider with accessor `7`: the old element is preserved, the
new element is appended after it, and the accessor is overwritten. -/
theorem addMultibindings_frame_witness :
    findA (addMultibindings [(1, ⟨[⟨⟨5, none, true, 9⟩⟩], 9⟩)] ⟨[], []⟩
        [(1, ⟨1, none, true, 7⟩)]).1 1 =
      some ⟨(⟨[⟨⟨5, none, true, 9⟩⟩], 9⟩ : NormalizedMultibindingData).elems ++
        newElemsFor 1 [(1, ⟨1, none, true, 7⟩)], 7⟩ :=
  (addMultibindings_frame [(1, (⟨1, none, true, 7⟩ : MultibindingData))]
    [(1, (⟨[⟨⟨5, none, true, 9⟩⟩], 9⟩ : NormalizedMultibindingData))] ⟨[], []⟩ 1 7
    ⟨[⟨⟨5, none, true, 9⟩⟩], 9⟩
    (by
      intro md h
      simp only [List.mem_cons, List.not_mem_nil, or_false, Prod.mk.injEq] at h
      rw [h.2])).2 (by rfl) (by decide)

/-! ## Claim theorems: lazy-component expansion -/

theorem filter_ne_cons_self {α : Type} [DecidableEq α] (c : α) (l : List α)
    (h : c ∉ l) : (c :: l).filter (fun x => x ≠ c) = l := by
  rw [List.filter_cons]
  rw [if_neg (by simp)]
  refine List.filter_eq_self.mpr ?_
  intro x hx
  simp only [Bool.not_eq_false', decide_eq_true_eq]
  simp only [ne_eq, decide_not, Bool.not_eq_false', decide_eq_false_iff_not]
  intro hxc
  exact h (hxc ▸ hx)

/-- C9: one loop iteration of `expandLazyComponents` preserves the invariant
that the expansion stack and the in-progress set hold exactly the same
components (as equal collections, hence of equal sizes — the `FruitAssert` at
the loop head): every push inserts into both in the same step, and every
boundary pop erases the matching set entry. -/
theorem expandStep_stack_matches_in_progress
    (install : LazyComponent → ComponentContribution) (tl : TypeId)
    (st st' : ExpandState)
    (hinv : st.components_with_expansion_in_progress = st.components_expansion_stack ∧
      st.components_expansion_stack.Nodup)
    (hstep : expandStep install tl st = .next st') :
    st'.components_with_expansion_in_progress = st'.components_expansion_stack ∧
    st'.components_expansion_stack.Nodup ∧
    st'.components_with_expansion_in_progress.length =
      st'.components_expansion_stack.length := by
  obtain ⟨hset, hnd⟩ := hinv
  cases hll : st.lazy_components with
  | nil =>
    simp [expandStep, hll] at hstep
  | cons hd rest =>
    cases hd with
    | none =>
      cases hstack : st.components_expansion_stack with
      | nil =>
        simp only [expandStep, hll, hstack, StepResult.next.injEq] at hstep
        subst hstep
        have h0 : st.components_with_expansion_in_progress = [] := hset.trans hstack
        exact ⟨h0, List.nodup_nil, by rw [h0]⟩
      | cons c srest =>
        simp only [expandStep, hll, hstack, StepResult.next.injEq] at hstep
        subst hstep
        rw [hstack] at hset hnd
        rw [List.nodup_cons] at hnd
        have hfilter : st.components_with_expansion_in_progress.filter
            (fun x => x ≠ c) = srest := by
          rw [hset]
          exact filter_ne_cons_self c srest hnd.1
        refine ⟨hfilter, hnd.2, ?_⟩
        rw [hfilter]
    | some c =>
      by_cases hfe : c ∈ st.fully_expanded_components
      · simp only [expandStep, hll, if_pos hfe, StepResult.next.injEq] at hstep
        subst hstep
        exact ⟨hset, hnd, by rw [hset]⟩
      · by_cases hip : c ∈ st.components_with_expansion_in_progress
        · simp only [expandStep, hll, if_neg hfe, if_pos hip] at hstep
          exact absurd hstep (by simp)
        · simp only [expandStep, hll, if_neg hfe, if_neg hip,
            StepResult.next.injEq] at hstep
          subst hstep
          have hcs : c ∉ st.components_expansion_stack := by
            rw [← hset]
            exact hip
          refine ⟨by rw [hset], List.nodup_cons.mpr ⟨hcs, hnd⟩, ?_⟩
          simp [hset]

/-- Witness for C9: opening the single component `⟨1, 0⟩` from the initial
state pushes it onto both the stack and the in-progress set. -/
theorem expandStep_stack_matches_in_progress_witness :
    (⟨[none], [], [], [], [⟨1, 0⟩], [⟨1, 0⟩], []⟩ :
        ExpandState).components_with_expansion_in_progress =
      (⟨[none], [], [], [], [⟨1, 0⟩], [⟨1, 0⟩], []⟩ :
        ExpandState).components_expansion_stack ∧
    (⟨[none], [], [], [], [⟨1, 0⟩], [⟨1, 0⟩], []⟩ :
        ExpandState).components_expansion_stack.Nodup ∧
    (⟨[none], [], [], [], [⟨1, 0⟩], [⟨1, 0⟩], []⟩ :
        ExpandState).components_with_expansion_in_progress.length =
      (⟨[none], [], [], [], [⟨1, 0⟩], [⟨1, 0⟩], []⟩ :
        ExpandState).components_expansion_stack.length :=
  expandStep_stack_matches_in_progress (fun _ => ⟨[], [], [], []⟩) 0
    ⟨[some ⟨1, 0⟩], [], [], [], [], [], []⟩
    ⟨[none], [], [], [], [⟨1, 0⟩], [⟨1, 0⟩], []⟩
    ⟨rfl, List.nodup_nil⟩ (by decide)

/-- C5: expanding a top-level component `A` that (directly, or mutually via
`B`) installs itself terminates the run with the fatal installation-loop
diagnostic; the printed trace starts with the top-level component's token,
contains the tokens of both components of the cycle, and marks the repeat
point.  (`A = B` gives the self-installing cycle.) -/
theorem expandLazyComponents_cycle_fatal
    (install : LazyComponent → ComponentContribution) (A B : LazyComponent)
    (tl : TypeId) (b0 : List (TypeId × BindingData))
    (m0 : List (TypeId × MultibindingData)) (c0 : List CompressedBinding)
    (fuel : Nat)
    (bA : List (TypeId × BindingData)) (mA : List (TypeId × MultibindingData))
    (cA : List CompressedBinding)
    (bB : List (TypeId × BindingData)) (mB : List (TypeId × MultibindingData))
    (cB : List CompressedBinding)
    (hA : install A = ⟨bA, mA, cA, [B]⟩)
    (hB : install B = ⟨bB, mB, cB, [A]⟩)
    (hfuel : 3 ≤ fuel) :
    (expandLazyComponents install ⟨[some A], b0, m0, c0⟩ tl fuel).isFatal = true ∧
    (expandLazyComponents install ⟨[some A], b0, m0, c0⟩ tl fuel).fatalTrace.head? =
      some (.typeId tl) ∧
    TraceLine.typeId A.getFunTypeId ∈
      (expandLazyComponents install ⟨[some A], b0, m0, c0⟩ tl fuel).fatalTrace ∧
    TraceLine.typeId B.getFunTypeId ∈
      (expandLazyComponents install ⟨[some A], b0, m0, c0⟩ tl fuel).fatalTrace ∧
    TraceLine.loopStartMarker ∈
      (expandLazyComponents install ⟨[some A], b0, m0, c0⟩ tl fuel).fatalTrace := by
  obtain ⟨k, rfl⟩ : ∃ k, fuel = k + 3 := ⟨fuel - 3, by omega⟩
  unfold expandLazyComponents initialExpandState
  by_cases hAB : A = B
  · subst hAB
    have hs1 : expandStep install tl ⟨[some A], b0, m0, c0, [], [], []⟩ =
        .next ⟨[some A, none], b0 ++ bA, m0 ++ mA, c0 ++ cA, [A], [A], []⟩ := by
      simp [expandStep, hA]
    have hs2 : expandStep install tl
        ⟨[some A, none], b0 ++ bA, m0 ++ mA, c0 ++ cA, [A], [A], []⟩ =
        .loopError ⟨tl, [A], A⟩ := by
      simp [expandStep]
    have hrun : expandLoop install tl (k + 3)
        ⟨[some A], b0, m0, c0, [], [], []⟩ = .fatal ⟨tl, [A], A⟩ := by
      simp only [expandLoop, hs1, hs2]
    rw [hrun]
    refine ⟨rfl, ?_, ?_, ?_, ?_⟩ <;>
      simp [ExpandResult.fatalTrace, printLazyComponentInstallationLoop]
  · have hBA : B ≠ A := Ne.symm hAB
    have hs1 : expandStep install tl ⟨[some A], b0, m0, c0, [], [], []⟩ =
        .next ⟨[some B, none], b0 ++ bA, m0 ++ mA, c0 ++ cA, [A], [A], []⟩ := by
      simp [expandStep, hA]
    have hs2 : expandStep install tl
        ⟨[some B, none], b0 ++ bA, m0 ++ mA, c0 ++ cA, [A], [A], []⟩ =
        .next ⟨[some A, none, none], (b0 ++ bA) ++ bB, (m0 ++ mA) ++ mB,
          (c0 ++ cA) ++ cB, [B, A], [B, A], []⟩ := by
      simp [expandStep, hB, hBA]
    have hs3 : expandStep install tl
        ⟨[some A, none, none], (b0 ++ bA) ++ bB, (m0 ++ mA) ++ mB,
          (c0 ++ cA) ++ cB, [B, A], [B, A], []⟩ =
        .loopError ⟨tl, [A, B], A⟩ := by
      simp [expandStep]
    have hrun : expandLoop install tl (k + 3)
        ⟨[some A], b0, m0, c0, [], [], []⟩ = .fatal ⟨tl, [A, B], A⟩ := by
      simp only [expandLoop, hs1, hs2, hs3]
    rw [hrun]
    refine ⟨rfl, ?_, ?_, ?_, ?_⟩ <;>
      simp [ExpandResult.fatalTrace, printLazyComponentInstallationLoop, hAB, hBA]

/-- Witness for C5: components `⟨1, 0⟩` and `⟨2, 0⟩` installing each other
under top-level token `9`. -/
theorem expandLazyComponents_cycle_fatal_witness :
    (expandLazyComponents
        (fun c => if c = ⟨1, 0⟩ then ⟨[], [], [], [⟨2, 0⟩]⟩ else ⟨[], [], [], [⟨1, 0⟩]⟩)
        ⟨[some ⟨1, 0⟩], [], [], []⟩ 9 3).isFatal = true ∧
    (expandLazyComponents
        (fun c => if c = ⟨1, 0⟩ then ⟨[], [], [], [⟨2, 0⟩]⟩ else ⟨[], [], [], [⟨1, 0⟩]⟩)
        ⟨[some ⟨1, 0⟩], [], [], []⟩ 9 3).fatalTrace.head? = some (.typeId 9) ∧
    TraceLine.typeId (LazyComponent.getFunTypeId ⟨1, 0⟩) ∈
      (expandLazyComponents
        (fun c => if c = ⟨1, 0⟩ then ⟨[], [], [], [⟨2, 0⟩]⟩ else ⟨[], [], [], [⟨1, 0⟩]⟩)
        ⟨[some ⟨1, 0⟩], [], [], []⟩ 9 3).fatalTrace ∧
    TraceLine.typeId (LazyComponent.getFunTypeId ⟨2, 0⟩) ∈
      (expandLazyComponents
        (fun c => if c = ⟨1, 0⟩ then ⟨[], [], [], [⟨2, 0⟩]⟩ else ⟨[], [], [], [⟨1, 0⟩]⟩)
        ⟨[some ⟨1, 0⟩], [], [], []⟩ 9 3).fatalTrace ∧
    TraceLine.loopStartMarker ∈
      (expandLazyComponents
        (fun c => if c = ⟨1, 0⟩ then ⟨[], [], [], [⟨2, 0⟩]⟩ else ⟨[], [], [], [⟨1, 0⟩]⟩)
        ⟨[some ⟨1, 0⟩], [], [], []⟩ 9 3).fatalTrace :=
  expandLazyComponents_cycle_fatal
    (fun c => if c = ⟨1, 0⟩ then ⟨[], [], [], [⟨2, 0⟩]⟩ else ⟨[], [], [], [⟨1, 0⟩]⟩)
    ⟨1, 0⟩ ⟨2, 0⟩ 9 [] [] [] 3 [] [] [] [] [] []
    (by decide) (by decide) (by decide)

/-- C6: expanding a diamond-shaped install graph (top-level `A` installs `B`
and `C`; both `B` and `C` install `D`; all distinct) contributes each
component's bindings, multibindings and compression candidates to the
accumulated lists exactly once — in particular `D`'s, although `D` is
reencountered, because the fully-expanded set makes the second encounter a
no-op. -/
theorem expandLazyComponents_diamond_once
    (install : LazyComponent → ComponentContribution) (A B C D : LazyComponent)
    (tl : TypeId) (b0 : List (TypeId × BindingData))
    (m0 : List (TypeId × MultibindingData)) (c0 : List CompressedBinding)
    (fuel : Nat)
    (bA : List (TypeId × BindingData)) (mA : List (TypeId × MultibindingData))
    (cA : List CompressedBinding)
    (bB : List (TypeId × BindingData)) (mB : List (TypeId × MultibindingData))
    (cB : List CompressedBinding)
    (bC : List (TypeId × BindingData)) (mC : List (TypeId × MultibindingData))
    (cC : List CompressedBinding)
    (bD : List (TypeId × BindingData)) (mD : List (TypeId × MultibindingData))
    (cD : List CompressedBinding)
    (hA : install A = ⟨bA, mA, cA, [B, C]⟩)
    (hB : install B = ⟨bB, mB, cB, [D]⟩)
    (hC : install C = ⟨bC, mC, cC, [D]⟩)
    (hD : install D = ⟨bD, mD, cD, []⟩)
    (hAB : A ≠ B) (hAC : A ≠ C) (hAD : A ≠ D)
    (hBC : B ≠ C) (hBD : B ≠ D) (hCD : C ≠ D)
    (hfuel : 10 ≤ fuel) :
    expandLazyComponents install ⟨[some A], b0, m0, c0⟩ tl fuel =
      .ok ⟨[], b0 ++ (bA ++ (bB ++ (bD ++ bC))), m0 ++ (mA ++ (mB ++ (mD ++ mC))),
        c0 ++ (cA ++ (cB ++ (cD ++ cC))), [], [], [A, C, B, D]⟩ := by
  obtain ⟨k, rfl⟩ : ∃ k, fuel = k + 10 := ⟨fuel - 10, by omega⟩
  unfold expandLazyComponents initialExpandState
  have hBA : B ≠ A := Ne.symm hAB
  have hCA : C ≠ A := Ne.symm hAC
  have hDA : D ≠ A := Ne.symm hAD
  have hCB : C ≠ B := Ne.symm hBC
  have hDB : D ≠ B := Ne.symm hBD
  have hDC : D ≠ C := Ne.symm hCD
  have hs1 : expandStep install tl ⟨[some A], b0, m0, c0, [], [], []⟩ =
      .next ⟨[some B, some C, none], b0 ++ bA, m0 ++ mA, c0 ++ cA,
        [A], [A], []⟩ := by
    simp [expandStep, hA]
  have hs2 : expandStep install tl
      ⟨[some B, some C, none], b0 ++ bA, m0 ++ mA, c0 ++ cA, [A], [A], []⟩ =
      .next ⟨[some D, none, some C, none], (b0 ++ bA) ++ bB, (m0 ++ mA) ++ mB,
        (c0 ++ cA) ++ cB, [B, A], [B, A], []⟩ := by
    simp [expandStep, hB, hBA]
  have hs3 : expandStep install tl
      ⟨[some D, none, some C, none], (b0 ++ bA) ++ bB, (m0 ++ mA) ++ mB,
        (c0 ++ cA) ++ cB, [B, A], [B, A], []⟩ =
      .next ⟨[none, none, some C, none], ((b0 ++ bA) ++ bB) ++ bD,
        ((m0 ++ mA) ++ mB) ++ mD, ((c0 ++ cA) ++ cB) ++ cD,
        [D, B, A], [D, B, A], []⟩ := by
    simp [expandStep, hD, hDA, hDB]
  have hs4 : expandStep install tl
      ⟨[none, none, some C, none], ((b0 ++ bA) ++ bB) ++ bD,
        ((m0 ++ mA) ++ mB) ++ mD, ((c0 ++ cA) ++ cB) ++ cD,
        [D, B, A], [D, B, A], []⟩ =
      .next ⟨[none, some C, none], ((b0 ++ bA) ++ bB) ++ bD,
        ((m0 ++ mA) ++ mB) ++ mD, ((c0 ++ cA) ++ cB) ++ cD,
        [B, A], [B, A], [D]⟩ := by
    simp [expandStep, hBD, hAD]
  have hs5 : expandStep install tl
      ⟨[none, some C, none], ((b0 ++ bA) ++ bB) ++ bD,
        ((m0 ++ mA) ++ mB) ++ mD, ((c0 ++ cA) ++ cB) ++ cD,
        [B, A], [B, A], [D]⟩ =
      .next ⟨[some C, none], ((b0 ++ bA) ++ bB) ++ bD,
        ((m0 ++ mA) ++ mB) ++ mD, ((c0 ++ cA) ++ cB) ++ cD,
        [A], [A], [B, D]⟩ := by
    simp [expandStep, hAB]
  have hs6 : expandStep install tl
      ⟨[some C, none], ((b0 ++ bA) ++ bB) ++ bD,
        ((m0 ++ mA) ++ mB) ++ mD, ((c0 ++ cA) ++ cB) ++ cD,
        [A], [A], [B, D]⟩ =
      .next ⟨[some D, none, none], (((b0 ++ bA) ++ bB) ++ bD) ++ bC,
        (((m0 ++ mA) ++ mB) ++ mD) ++ mC, (((c0 ++ cA) ++ cB) ++ cD) ++ cC,
        [C, A], [C, A], [B, D]⟩ := by
    simp [expandStep, hC, hCA, hCB, hCD]
  have hs7 : expandStep install tl
      ⟨[some D, none, none], (((b0 ++ bA) ++ bB) ++ bD) ++ bC,
        (((m0 ++ mA) ++ mB) ++ mD) ++ mC, (((c0 ++ cA) ++ cB) ++ cD) ++ cC,
        [C, A], [C, A], [B, D]⟩ =
      .next ⟨[none, none], (((b0 ++ bA) ++ bB) ++ bD) ++ bC,
        (((m0 ++ mA) ++ mB) ++ mD) ++ mC, (((c0 ++ cA) ++ cB) ++ cD) ++ cC,
        [C, A], [C, A], [B, D]⟩ := by
    simp [expandStep]
  have hs8 : expandStep install tl
      ⟨[none, none], (((b0 ++ bA) ++ bB) ++ bD) ++ bC,
        (((m0 ++ mA) ++ mB) ++ mD) ++ mC, (((c0 ++ cA) ++ cB) ++ cD) ++ cC,
        [C, A], [C, A], [B, D]⟩ =
      .next ⟨[none], (((b0 ++ bA) ++ bB) ++ bD) ++ bC,
        (((m0 ++ mA) ++ mB) ++ mD) ++ mC, (((c0 ++ cA) ++ cB) ++ cD) ++ cC,
        [A], [A], [C, B, D]⟩ := by
    simp [expandStep, hAC]
  have hs9 : expandStep install tl
      ⟨[none], (((b0 ++ bA) ++ bB) ++ bD) ++ bC,
        (((m0 ++ mA) ++ mB) ++ mD) ++ mC, (((c0 ++ cA) ++ cB) ++ cD) ++ cC,
        [A], [A], [C, B, D]⟩ =
      .next ⟨[], (((b0 ++ bA) ++ bB) ++ bD) ++ bC,
        (((m0 ++ mA) ++ mB) ++ mD) ++ mC, (((c0 ++ cA) ++ cB) ++ cD) ++ cC,
        [], [], [A, C, B, D]⟩ := by
    simp [expandStep]
  have hs10 : expandStep install tl
      ⟨[], (((b0 ++ bA) ++ bB) ++ bD) ++ bC,
        (((m0 ++ mA) ++ mB) ++ mD) ++ mC, (((c0 ++ cA) ++ cB) ++ cD) ++ cC,
        [], [], [A, C, B, D]⟩ =
      .done ⟨[], (((b0 ++ bA) ++ bB) ++ bD) ++ bC,
        (((m0 ++ mA) ++ mB) ++ mD) ++ mC, (((c0 ++ cA) ++ cB) ++ cD) ++ cC,
        [], [], [A, C, B, D]⟩ := by
    simp [expandStep]
  have hrun : expandLoop install tl (k + 10) ⟨[some A], b0, m0, c0, [], [], []⟩ =
      .ok ⟨[], (((b0 ++ bA) ++ bB) ++ bD) ++ bC,
        (((m0 ++ mA) ++ mB) ++ mD) ++ mC, (((c0 ++ cA) ++ cB) ++ cD) ++ cC,
        [], [], [A, C, B, D]⟩ := by
    simp only [expandLoop, hs1, hs2, hs3, hs4, hs5, hs6, hs7, hs8, hs9, hs10]
  rw [hrun]
  simp [List.append_assoc]

/-- Witness for C6: the concrete diamond `⟨1,0⟩ → ⟨2,0⟩, ⟨3,0⟩ → ⟨4,0⟩` with
one binding per component; `⟨4,0⟩`'s binding appears exactly once. -/
theorem expandLazyComponents_diamond_once_witness :
    expandLazyComponents
        (fun c =>
          if c = ⟨1, 0⟩ then ⟨[(100, ⟨false, [], 0, true⟩)], [], [], [⟨2, 0⟩, ⟨3, 0⟩]⟩
          else if c = ⟨2, 0⟩ then ⟨[(101, ⟨false, [], 0, true⟩)], [], [], [⟨4, 0⟩]⟩
          else if c = ⟨3, 0⟩ then ⟨[(102, ⟨false, [], 0, true⟩)], [], [], [⟨4, 0⟩]⟩
          else ⟨[(103, ⟨false, [], 0, true⟩)], [], [], []⟩)
        ⟨[some ⟨1, 0⟩], [], [], []⟩ 9 10 =
      .ok ⟨[],
        [] ++ ([(100, ⟨false, [], 0, true⟩)] ++ ([(101, ⟨false, [], 0, true⟩)] ++
          ([(103, ⟨false, [], 0, true⟩)] ++ [(102, ⟨false, [], 0, true⟩)]))),
        [] ++ ([] ++ ([] ++ ([] ++ []))), [] ++ ([] ++ ([] ++ ([] ++ []))),
        [], [], [⟨1, 0⟩, ⟨3, 0⟩, ⟨2, 0⟩, ⟨4, 0⟩]⟩ :=
  expandLazyComponents_diamond_once
    (fun c =>
      if c = ⟨1, 0⟩ then ⟨[(100, ⟨false, [], 0, true⟩)], [], [], [⟨2, 0⟩, ⟨3, 0⟩]⟩
      else if c = ⟨2, 0⟩ then ⟨[(101, ⟨false, [], 0, true⟩)], [], [], [⟨4, 0⟩]⟩
      else if c = ⟨3, 0⟩ then ⟨[(102, ⟨false, [], 0, true⟩)], [], [], [⟨4, 0⟩]⟩
      else ⟨[(103, ⟨false, [], 0, true⟩)], [], [], []⟩)
    ⟨1, 0⟩ ⟨2, 0⟩ ⟨3, 0⟩ ⟨4, 0⟩ 9 [] [] [] 10
    [(100, ⟨false, [], 0, true⟩)] [] []
    [(101, ⟨false, [], 0, true⟩)] [] []
    [(102, ⟨false, [], 0, true⟩)] [] []
    [(103, ⟨false, [], 0, true⟩)] [] []
    (by decide) (by decide) (by decide) (by decide)
    (by decide) (by decide) (by decide)
    (by decide) (by decide) (by decide) (by decide)
